import Mathlib

/-!
Verification of the shortest-path program in
`src/BonusAssignment/cs365-bonus/src/main.rs`.

The Rust program is embedded shallowly:
* machine integers (`usize`, 64-bit) become `Nat`; the one arithmetic
  operation of the program, `cost + edge.cost` in the relaxation step,
  is modelled as wrapping addition `(a + b) % 2 ^ 64` (`wadd`), the
  semantics of a release build (a debug build would panic on overflow
  instead; under the `totalCost g < 2 ^ 64` hypothesis used by the
  positive theorems no overflow ever occurs, so the two build profiles
  and the unbounded sum all agree there);
* `Vec<T>` becomes `List`; `Option<T>` becomes `Option`;
* a `Vec` indexing operation that would panic in Rust (index out of
  bounds) is modelled by an explicit bounds test whose failure aborts
  the function with `none`; the safety theorems prove these branches
  are never taken under the graph invariants;
* `BinaryHeap` is modelled as a list used as a multiset: `push` conses,
  `pop` removes a maximal element under the `Ord` instance of `State`.
  Heap entries that compare `Ordering.eq` under that instance are equal
  as values, so which copy `pop` returns is unobservable;
* the unbounded parent-walk of the reconstruction loop runs on fuel
  `parent.length + 1`; fuel exhaustion (which would be divergence in
  Rust) yields `none` and is proved unreachable under the invariants.
-/

namespace CS365

/-- `struct State { cost: usize, position: usize }`. -/
structure State where
  cost : Nat
  position : Nat
deriving DecidableEq

/-- `impl Ord for State`: `other.cost.cmp(&self.cost).then_with(|| self.position.cmp(&other.position))`. -/
def State.cmp (a b : State) : Ordering :=
  (compare b.cost a.cost).then (compare a.position b.position)

/-- `struct Edge { node: usize, cost: usize }`. -/
structure Edge where
  node : Nat
  cost : Nat
deriving DecidableEq

/-- `struct Graph { nodes: Vec<String>, list: Vec<Vec<Edge>> }`. -/
structure Graph where
  nodes : List String
  list : List (List Edge)
deriving DecidableEq

/-- `Graph::new`. -/
def Graph.new : Graph := ⟨[], []⟩

/-- `Graph::get_node_name`: `self.nodes.get(i)`. -/
def Graph.get_node_name (g : Graph) (i : Nat) : Option String :=
  g.nodes[i]?

/-- `Graph::get_node`: `self.nodes.iter().position(|n| n == name)`. -/
def Graph.get_node (g : Graph) (name : String) : Option Nat :=
  g.nodes.findIdx? (fun n => n == name)

/-- `Graph::get_or_insert_node`; returns the updated graph together with
the index the Rust method returns. -/
def Graph.get_or_insert_node (g : Graph) (name : String) : Graph × Nat :=
  match g.get_node name with
  | some n => (g, n)
  | none => (⟨g.nodes ++ [name], g.list ++ [[]]⟩, g.nodes.length)

/-- In-place update of one list entry, used for `self.list[i].push(..)`.
Rust panics when `i` is out of range; all call sites are proved (or
hypothesised) in range, where this is a faithful model. -/
def listModify (f : α → α) : Nat → List α → List α
  | _, [] => []
  | 0, a :: l => f a :: l
  | n + 1, a :: l => a :: listModify f n l

/-- `Graph::add_bidirectional_edge`: `self.list[src].push(Edge { node: dest, cost });
self.list[dest].push(Edge { node: src, cost });`. -/
def Graph.add_bidirectional_edge (g : Graph) (src dest cost : Nat) : Graph :=
  { g with
    list := listModify (fun l => l ++ [⟨src, cost⟩]) dest
      (listModify (fun l => l ++ [⟨dest, cost⟩]) src g.list) }

/-- `struct Path { path: Vec<usize>, distance: Vec<usize>, cost: usize }`. -/
structure Path where
  path : List Nat
  distance : List Nat
  cost : Nat
deriving DecidableEq

/-- `str::parse::<usize>` on a token (Rust strings are modelled as
their character lists, so that parsing is a structural computation): an
optional leading `+`, then at least one decimal digit, and the value
must fit in the 64-bit machine word. -/
def parseUsize (s : List Char) : Option Nat :=
  let digits := match s with
    | '+' :: rest => rest
    | _ => s
  if digits.isEmpty then none
  else if digits.all (fun c => c.isDigit) then
    let v := digits.foldl (fun acc c => acc * 10 + (c.toNat - 48)) 0
    if v < 2 ^ 64 then some v else none
  else none

/-- The Unicode `White_Space` property, which is what Rust's
`char::is_whitespace` (and hence `str::trim`) tests: U+0009–U+000D,
space, U+0085, U+00A0, U+1680, U+2000–U+200A, U+2028, U+2029, U+202F,
U+205F and U+3000. -/
def isRustWhitespace (c : Char) : Bool :=
  c = '\t' || c = '\n' || c = '\u000B' || c = '\u000C' || c = '\r' || c = ' ' ||
  c = '\u0085' || c = '\u00A0' || c = '\u1680' ||
  ('\u2000' ≤ c && c ≤ '\u200A') ||
  c = '\u2028' || c = '\u2029' || c = '\u202F' || c = '\u205F' || c = '\u3000'

/-- `str::trim` (on the character list): strip `White_Space` characters
from both ends. -/
def rustTrim (s : List Char) : List Char :=
  ((s.dropWhile isRustWhitespace).reverse.dropWhile isRustWhitespace).reverse

/-- `str::split(sep)`: splits at every occurrence of `sep`, keeping
empty pieces; the empty string yields one empty piece. -/
def splitOnChar (sep : Char) : List Char → List (List Char)
  | [] => [[]]
  | c :: cs =>
    if c = sep then [] :: splitOnChar sep cs
    else
      match splitOnChar sep cs with
      | [] => [[c]]
      | t :: ts => (c :: t) :: ts

/-- `str::lines` on the already-trimmed input: no line for the empty
string, otherwise split at `'\n'` and drop one trailing `'\r'`. -/
def rustLines (s : List Char) : List (List Char) :=
  if s.isEmpty then []
  else (splitOnChar '\n' s).map
    (fun l => if l.getLast? = some '\r' then l.dropLast else l)

/-- One iteration of the `for line in input.lines()` loop of `load_graph`:
`line.split(' ')`, take three tokens with `?`, parse the cost with `?`,
insert both endpoints, add the edge.  Tokens after the third are ignored,
exactly as `iter.next()` three times ignores them. -/
def loadLine (g : Graph) (line : List Char) : Option Graph :=
  match splitOnChar ' ' line with
  | src :: dest :: costStr :: _ =>
    match parseUsize costStr with
    | none => none
    | some cost =>
      let p1 := g.get_or_insert_node (String.mk src)
      let p2 := p1.1.get_or_insert_node (String.mk dest)
      some (p2.1.add_bidirectional_edge p1.2 p2.2 cost)
  | _ => none

/-- `load_graph`. -/
def load_graph (input : String) : Option Graph :=
  (rustLines (rustTrim input.data)).foldlM loadLine Graph.new

/-- The maximal element (under `State.cmp`) of `s :: l`; the first
maximal element is kept, but any two `cmp`-equal states are equal. -/
def maxState (s : State) : List State → State
  | [] => s
  | x :: l => maxState (if State.cmp x s = Ordering.gt then x else s) l

/-- `BinaryHeap::pop` on the multiset model: remove a maximal element. -/
def popMax : List State → Option (State × List State)
  | [] => none
  | x :: l => some (maxState x l, (x :: l).erase (maxState x l))

/-- The measures driving termination of the main loop: the number of
vertices with unknown tentative distance. -/
def numNone (l : List (Option Nat)) : Nat :=
  l.countP (fun o => o.isNone)

/-- ... and the sum of the known tentative distances. -/
def sumSome (l : List (Option Nat)) : Nat :=
  (l.map (fun o => o.getD 0)).sum

/-- 64-bit `usize` addition: the sum wraps around `2 ^ 64`, the
behaviour of `cost + edge.cost` in a release build. -/
def wadd (a b : Nat) : Nat :=
  (a + b) % 2 ^ 64

/-- The `for edge in graph.list[position].iter()` loop body of
`find_shortest_path`: relax every edge out of the popped state, pushing
improved states.  `next.cost = cost + edge.cost` is the wrapping 64-bit
sum `wadd cost e.cost`.  `none` models the panic on an out-of-range
`distance[next.position]` or `parent[next.position]` access. -/
def relaxEdges (cost position : Nat) :
    List Edge → List (Option Nat) → List (Option Nat) → List State →
    Option (List (Option Nat) × List (Option Nat) × List State)
  | [], distance, parent, heap => some (distance, parent, heap)
  | e :: es, distance, parent, heap =>
    match distance[e.node]? with
    | none => none
    | some old =>
      if e.node < parent.length then
        if (match old with | none => true | some d => decide (wadd cost e.cost < d)) then
          relaxEdges cost position es (distance.set e.node (some (wadd cost e.cost)))
            (parent.set e.node (some position)) (State.mk (wadd cost e.cost) e.node :: heap)
        else relaxEdges cost position es distance parent heap
      else none

/-! ### Termination of the relaxation loop

Every push strictly improves some tentative distance, so the triple
(number of unknown distances, sum of known distances, heap size)
decreases lexicographically at every iteration of the main loop. -/

theorem numNone_set_none {l : List (Option Nat)} {i : Nat} (c : Nat)
    (h : l[i]? = some none) : numNone (l.set i (some c)) < numNone l := by
  induction l generalizing i with
  | nil => simp at h
  | cons a t ih =>
    cases i with
    | zero =>
      simp only [List.getElem?_cons_zero, Option.some.injEq] at h
      subst h
      simp [numNone, List.countP_cons]
    | succ n =>
      simp only [List.getElem?_cons_succ] at h
      have := ih (i := n) h
      simpa [numNone, List.countP_cons] using this

theorem numNone_set_some {l : List (Option Nat)} {i : Nat} (c : Nat) {d : Nat}
    (h : l[i]? = some (some d)) : numNone (l.set i (some c)) = numNone l := by
  induction l generalizing i with
  | nil => simp at h
  | cons a t ih =>
    cases i with
    | zero =>
      simp only [List.getElem?_cons_zero, Option.some.injEq] at h
      subst h
      simp [numNone, List.countP_cons]
    | succ n =>
      simp only [List.getElem?_cons_succ] at h
      have := ih (i := n) h
      simpa [numNone, List.countP_cons] using this

theorem sumSome_set_lt {l : List (Option Nat)} {i : Nat} {c d : Nat}
    (h : l[i]? = some (some d)) (hc : c < d) :
    sumSome (l.set i (some c)) < sumSome l := by
  induction l generalizing i with
  | nil => simp at h
  | cons a t ih =>
    cases i with
    | zero =>
      simp only [List.getElem?_cons_zero, Option.some.injEq] at h
      subst h
      simpa [sumSome] using hc
    | succ n =>
      simp only [List.getElem?_cons_succ] at h
      have := ih (i := n) h
      simpa [sumSome] using this

/-- Strict lexicographic decrease of the distance-vector measure. -/
def MLex (d' d : List (Option Nat)) : Prop :=
  numNone d' < numNone d ∨ (numNone d' = numNone d ∧ sumSome d' < sumSome d)

theorem MLex.trans {a b c : List (Option Nat)} (h1 : MLex a b) (h2 : MLex b c) :
    MLex a c := by
  rcases h1 with h1 | ⟨h1, h1'⟩ <;> rcases h2 with h2 | ⟨h2, h2'⟩
  · exact Or.inl (h1.trans h2)
  · exact Or.inl (h2 ▸ h1)
  · exact Or.inl (h1 ▸ h2)
  · exact Or.inr ⟨h1.trans h2, h1'.trans h2'⟩

theorem MLex_set {l : List (Option Nat)} {i : Nat} {old : Option Nat} {c : Nat}
    (h : l[i]? = some old)
    (hcond : old = none ∨ ∃ d, old = some d ∧ c < d) :
    MLex (l.set i (some c)) l := by
  rcases hcond with rfl | ⟨d, rfl, hd⟩
  · exact Or.inl (numNone_set_none c h)
  · exact Or.inr ⟨numNone_set_some c h, sumSome_set_lt h hd⟩

theorem relaxEdges_measure {cost position : Nat} :
    ∀ {es : List Edge} {distance parent : List (Option Nat)} {heap : List State}
      {d' p' : List (Option Nat)} {h' : List State},
      relaxEdges cost position es distance parent heap = some (d', p', h') →
      (d' = distance ∧ h' = heap) ∨ MLex d' distance := by
  intro es
  induction es with
  | nil =>
    intro distance parent heap d' p' h' h
    simp only [relaxEdges, Option.some.injEq, Prod.mk.injEq] at h
    exact Or.inl ⟨h.1.symm, h.2.2.symm⟩
  | cons e es ih =>
    intro distance parent heap d' p' h' h
    simp only [relaxEdges] at h
    split at h
    · exact absurd h (by simp)
    next old hg =>
      split at h
      · split at h
        next himp =>
          have hcond : old = none ∨ ∃ d, old = some d ∧ wadd cost e.cost < d := by
            cases old with
            | none => exact Or.inl rfl
            | some d => exact Or.inr ⟨d, rfl, by simpa using himp⟩
          have step : MLex (distance.set e.node (some (wadd cost e.cost))) distance :=
            MLex_set hg hcond
          rcases ih h with ⟨he, _⟩ | hm
          · exact Or.inr (he ▸ step)
          · exact Or.inr (hm.trans step)
        next _ => exact ih h
      · exact absurd h (by simp)

theorem maxState_mem (s : State) (l : List State) : maxState s l ∈ s :: l := by
  induction l generalizing s with
  | nil => simp [maxState]
  | cons x l ih =>
    simp only [maxState]
    have := ih (if State.cmp x s = Ordering.gt then x else s)
    rcases List.mem_cons.mp this with h | h
    · rw [h]
      by_cases hc : State.cmp x s = Ordering.gt
      · simp [hc]
      · simp [hc]
    · exact List.mem_cons_of_mem _ (List.mem_cons_of_mem _ h)

theorem popMax_eq_some {heap : List State} {s : State} {rest : List State}
    (h : popMax heap = some (s, rest)) : s ∈ heap ∧ rest = heap.erase s := by
  cases heap with
  | nil => simp [popMax] at h
  | cons x l =>
    simp only [popMax, Option.some.injEq, Prod.mk.injEq] at h
    exact ⟨h.1 ▸ maxState_mem x l, h.2.symm.trans (by rw [h.1])⟩

theorem popMax_length {heap : List State} {s : State} {rest : List State}
    (h : popMax heap = some (s, rest)) : rest.length < heap.length := by
  obtain ⟨hm, he⟩ := popMax_eq_some h
  rw [he, List.length_erase_of_mem hm]
  exact Nat.sub_lt (List.length_pos.mpr (List.ne_nil_of_mem hm)) Nat.one_pos

/-- The `while let Some(State { cost, position }) = heap.pop()` loop of
`find_shortest_path`: filter stale entries, relax the popped vertex's
edges.  `none` models the panic on an out-of-range `distance[position]`
or `graph.list[position]` access. -/
def dijkstraLoop (g : Graph) (distance parent : List (Option Nat)) (heap : List State) :
    Option (List (Option Nat) × List (Option Nat)) :=
  match hpop : popMax heap with
  | none => some (distance, parent)
  | some (s, rest) =>
    match distance[s.position]? with
    | none => none
    | some dcur =>
      if (match dcur with | none => false | some d => decide (s.cost > d)) then
        dijkstraLoop g distance parent rest
      else
        match g.list[s.position]? with
        | none => none
        | some edges =>
          match hrel : relaxEdges s.cost s.position edges distance parent rest with
          | none => none
          | some (distance', parent', heap') => dijkstraLoop g distance' parent' heap'
termination_by (numNone distance, sumSome distance, heap.length)
decreasing_by
  · exact Prod.Lex.right _ (Prod.Lex.right _ (popMax_length hpop))
  · rcases relaxEdges_measure hrel with ⟨h1, h2⟩ | hm
    · subst h1; subst h2
      exact Prod.Lex.right _ (Prod.Lex.right _ (popMax_length hpop))
    · rcases hm with h1 | ⟨h1, h2⟩
      · exact Prod.Lex.left _ _ h1
      · rw [h1]
        exact Prod.Lex.right _ (Prod.Lex.left _ _ h2)

/-! Rewriting lemmas for one iteration of the loop; the dependent match
on `popMax heap` blocks `simp`, so they are proved once by `split`. -/

theorem dijkstraLoop_empty {g : Graph} {d p : List (Option Nat)} {heap : List State}
    (h : popMax heap = none) : dijkstraLoop g d p heap = some (d, p) := by
  rw [dijkstraLoop, h]

theorem dijkstraLoop_panic1 {g : Graph} {d p : List (Option Nat)} {heap rest : List State}
    {s : State} (h : popMax heap = some (s, rest)) (hd : d[s.position]? = none) :
    dijkstraLoop g d p heap = none := by
  rw [dijkstraLoop]
  split
  next hpop => exact absurd (h.symm.trans hpop) (by simp)
  next s' rest' hpop =>
    have he := h.symm.trans hpop
    simp only [Option.some.injEq, Prod.mk.injEq] at he
    obtain ⟨rfl, rfl⟩ := he
    rw [hd]

theorem dijkstraLoop_stale {g : Graph} {d p : List (Option Nat)} {heap rest : List State}
    {s : State} {dv : Nat}
    (h : popMax heap = some (s, rest)) (hd : d[s.position]? = some (some dv))
    (hdlt : dv < s.cost) :
    dijkstraLoop g d p heap = dijkstraLoop g d p rest := by
  rw [dijkstraLoop]
  split
  next hpop => exact absurd (h.symm.trans hpop) (by simp)
  next s' rest' hpop =>
    have he := h.symm.trans hpop
    simp only [Option.some.injEq, Prod.mk.injEq] at he
    obtain ⟨rfl, rfl⟩ := he
    rw [hd]
    simp [hdlt]

theorem dijkstraLoop_panic2 {g : Graph} {d p : List (Option Nat)} {heap rest : List State}
    {s : State} (dcur : Option Nat)
    (h : popMax heap = some (s, rest))
    (hst : (match dcur with | none => false | some x => decide (s.cost > x)) = false)
    (hd : d[s.position]? = some dcur)
    (hg : g.list[s.position]? = none) :
    dijkstraLoop g d p heap = none := by
  rw [dijkstraLoop]
  split
  next hpop => exact absurd (h.symm.trans hpop) (by simp)
  next s' rest' hpop =>
    have he := h.symm.trans hpop
    simp only [Option.some.injEq, Prod.mk.injEq] at he
    obtain ⟨rfl, rfl⟩ := he
    simp only [hd, hst, Bool.false_eq_true, if_false, hg]

theorem dijkstraLoop_panic3 {g : Graph} {d p : List (Option Nat)} {heap rest : List State}
    {s : State} (dcur : Option Nat) {edges : List Edge}
    (h : popMax heap = some (s, rest))
    (hst : (match dcur with | none => false | some x => decide (s.cost > x)) = false)
    (hd : d[s.position]? = some dcur)
    (hg : g.list[s.position]? = some edges)
    (hr : relaxEdges s.cost s.position edges d p rest = none) :
    dijkstraLoop g d p heap = none := by
  rw [dijkstraLoop]
  split
  next hpop => exact absurd (h.symm.trans hpop) (by simp)
  next s' rest' hpop =>
    have he := h.symm.trans hpop
    simp only [Option.some.injEq, Prod.mk.injEq] at he
    obtain ⟨rfl, rfl⟩ := he
    simp only [hd, hst, Bool.false_eq_true, if_false, hg]
    split
    next hrel => rfl
    next d2 p2 h2 hrel => exact absurd (hr.symm.trans hrel) (by simp)

theorem dijkstraLoop_go {g : Graph} {d p d' p' : List (Option Nat)}
    {heap rest h' : List State} {s : State} (dcur : Option Nat) {edges : List Edge}
    (h : popMax heap = some (s, rest))
    (hst : (match dcur with | none => false | some x => decide (s.cost > x)) = false)
    (hd : d[s.position]? = some dcur)
    (hg : g.list[s.position]? = some edges)
    (hr : relaxEdges s.cost s.position edges d p rest = some (d', p', h')) :
    dijkstraLoop g d p heap = dijkstraLoop g d' p' h' := by
  rw [dijkstraLoop]
  split
  next hpop => exact absurd (h.symm.trans hpop) (by simp)
  next s' rest' hpop =>
    have he := h.symm.trans hpop
    simp only [Option.some.injEq, Prod.mk.injEq] at he
    obtain ⟨rfl, rfl⟩ := he
    simp only [hd, hst, Bool.false_eq_true, if_false, hg]
    split
    next hrel => exact absurd (hr.symm.trans hrel) (by simp)
    next d2 p2 h2 hrel =>
      have he2 := hr.symm.trans hrel
      simp only [Option.some.injEq, Prod.mk.injEq] at he2
      obtain ⟨rfl, rfl, rfl⟩ := he2
      rfl

/-- The `while let Some(index) = parent[edge_index]` reconstruction loop
of `find_shortest_path`, together with the final
`dist.push(distance[edge_index]?)`.  `none` models the panic on an
out-of-range access, the `?` on a missing distance, and (at fuel 0)
divergence; under the invariants fuel `parent.length + 1` is proved
sufficient. -/
def buildPath (distance parent : List (Option Nat)) :
    Nat → Nat → List Nat → List Nat → Option (List Nat × List Nat)
  | 0, _, _, _ => none
  | fuel + 1, edge_index, path, dist =>
    match parent[edge_index]? with
    | none => none
    | some (some index) =>
      match distance[edge_index]? with
      | none => none
      | some none => none
      | some (some d) =>
        buildPath distance parent fuel index (path ++ [index]) (dist ++ [d])
    | some none =>
      match distance[edge_index]? with
      | none => none
      | some none => none
      | some (some d) => some (path, dist ++ [d])

/-- `find_shortest_path`. -/
def find_shortest_path (g : Graph) (start fin : Nat) : Option Path :=
  let n := g.list.length
  if start < n then
    match dijkstraLoop g ((List.replicate n (none : Option Nat)).set start (some 0))
        (List.replicate n (none : Option Nat)) [State.mk 0 start] with
    | none => none
    | some (distance, parent) =>
      match distance[fin]? with
      | none => none
      | some none => none
      | some (some cost) =>
        match parent[fin]? with
        | none => none
        | some none => none
        | some (some e0) =>
          match buildPath distance parent (parent.length + 1) e0 [e0] [cost] with
          | none => none
          | some (path, dist) => some (Path.mk path.reverse dist.reverse cost)
  else none

/-! ### Walks, graph well-formedness, parent chains -/

/-- The adjacency list of vertex `u` (empty when `u` is out of range). -/
def edgesOf (g : Graph) (u : Nat) : List Edge :=
  g.list.getD u []

/-- `IsWalk g s v c`: the graph has a walk from `s` to `v` of total cost
`c`, following adjacency entries; extended at the target end. -/
inductive IsWalk (g : Graph) (s : Nat) : Nat → Nat → Prop
  | nil : IsWalk g s s 0
  | snoc {u c : Nat} (e : Edge) (he : e ∈ edgesOf g u) (hw : IsWalk g s u c) :
      IsWalk g s e.node (c + e.cost)

/-- The §3 structural invariants of the graph: parallel name and
adjacency sequences, in-range neighbor indices, no duplicate names. -/
def GraphWF (g : Graph) : Prop :=
  g.nodes.length = g.list.length ∧
  (∀ l ∈ g.list, ∀ e ∈ l, e.node < g.list.length) ∧
  g.nodes.Nodup

instance : DecidablePred GraphWF := fun g => by
  unfold GraphWF
  infer_instance

/-- The total cost of the adjacency entries out of vertex `u`. -/
def rowSum (g : Graph) (u : Nat) : Nat :=
  ((edgesOf g u).map Edge.cost).sum

/-- The total cost of all adjacency entries of the graph (each
bidirectional edge counted once per direction).  `totalCost g < 2 ^ 64`
is the no-overflow hypothesis of the positive theorems: every sum the
relaxation step forms is bounded by it, so the wrapping 64-bit addition
agrees with the unbounded one, and a debug build would not panic. -/
def totalCost (g : Graph) : Nat :=
  ((List.range g.list.length).map (rowSum g)).sum

/-- A certified simple path: a walk from `s` to `v` of cost `c` whose
vertex sequence is `vs` without repeats, and on which every vertex's
tentative distance in `d` is at or below the walk's prefix cost there.
Each known distance keeps such a certificate throughout the loop; it
bounds the distance by `totalCost g` and survives every improvement the
loop makes to `d`. -/
inductive Trail (g : Graph) (d : List (Option Nat)) (s : Nat) : Nat → Nat → List Nat → Prop
  | nil (h0 : d[s]? = some (some 0)) : Trail g d s s 0 [s]
  | snoc {u c : Nat} {vs : List Nat} (e : Edge) (he : e ∈ edgesOf g u)
      (hnew : e.node ∉ vs)
      (hdom : ∃ dx, d[e.node]? = some (some dx) ∧ dx ≤ c + e.cost)
      (hw : Trail g d s u c vs) : Trail g d s e.node (c + e.cost) (vs ++ [e.node])

/-- `k`-fold iteration of the parent map (`none` once a vertex without a
parent, or out of range, is passed). -/
def pIter (p : List (Option Nat)) : Nat → Nat → Option Nat
  | 0, v => some v
  | k + 1, v =>
    match p.getD v none with
    | none => none
    | some u => pIter p k u

/-- The parent map has no cycle. -/
def Acyclic (p : List (Option Nat)) : Prop :=
  ∀ v k, pIter p (k + 1) v ≠ some v

/-- Every edge out of `u` has been relaxed against the value `du`. -/
def Relaxed (g : Graph) (d : List (Option Nat)) (u du : Nat) : Prop :=
  ∀ e ∈ edgesOf g u, ∃ dv, d[e.node]? = some (some dv) ∧ dv ≤ du + e.cost

/-- The core loop invariant of `find_shortest_path`'s relaxation loop,
relating the tentative distances `d`, the parent pointers `p` and the
heap contents; everything except the openness disjunction. -/
structure Inv0 (g : Graph) (s : Nat) (d p : List (Option Nat)) (heap : List State) : Prop where
  dlen : d.length = g.list.length
  plen : p.length = g.list.length
  dzero : d[s]? = some (some 0)
  sound : ∀ v dv, d[v]? = some (some dv) → ∃ vs, Trail g d s v dv vs
  hbound : ∀ st ∈ heap, ∃ dv, d[st.position]? = some (some dv) ∧ dv ≤ st.cost
  psome : ∀ v dv, v ≠ s → d[v]? = some (some dv) → ∃ w, p[v]? = some (some w)
  pstart : p[s]? = some none
  pedge : ∀ v w, p[v]? = some (some w) → ∃ e ∈ edgesOf g w, e.node = v ∧
    ∃ dw dv, d[w]? = some (some dw) ∧ d[v]? = some (some dv) ∧ dw + e.cost ≤ dv
  acyc : Acyclic p

/-- The full loop invariant: additionally, every vertex with a known
distance either still has a matching heap entry or is fully relaxed. -/
structure Inv (g : Graph) (s : Nat) (d p : List (Option Nat)) (heap : List State) : Prop where
  core : Inv0 g s d p heap
  fresh : ∀ u du, d[u]? = some (some du) → State.mk du u ∈ heap ∨ Relaxed g d u du

/-! ### Parent-chain lemmas -/

theorem list_getD_eq (p : List (Option Nat)) (v : Nat) :
    p.getD v none = (p[v]?).getD none := by
  simp [List.getD_eq_getElem?_getD]

theorem getD_opt {p : List (Option Nat)} {v w : Nat} :
    p.getD v none = some w ↔ p[v]? = some (some w) := by
  rw [list_getD_eq]
  cases h : p[v]? with
  | none => simp
  | some o => simp

theorem getD_opt_none {p : List (Option Nat)} {v : Nat} :
    p.getD v none = none ↔ (p[v]? = none ∨ p[v]? = some none) := by
  rw [list_getD_eq]
  cases h : p[v]? with
  | none => simp
  | some o => cases o <;> simp

theorem getElem?_some_lt {l : List α} {v : Nat} {x : α} (h : l[v]? = some x) :
    v < l.length := by
  by_contra hv
  rw [List.getElem?_eq_none (Nat.le_of_not_lt hv)] at h
  cases h

theorem pIter_add (p : List (Option Nat)) (m n v : Nat) :
    pIter p (m + n) v =
      match pIter p m v with
      | none => none
      | some w => pIter p n w := by
  induction m generalizing v with
  | zero => simp [pIter]
  | succ m ih =>
    have he : m + 1 + n = (m + n) + 1 := by omega
    rw [he]
    cases hp : p.getD v none with
    | none => simp only [pIter, hp]
    | some u =>
      simp only [pIter, hp]
      exact ih u

theorem pIter_set_ne {p : List (Option Nat)} {a : Nat} {val : Option Nat} {m v : Nat}
    (h : ∀ i < m, pIter (p.set a val) i v ≠ some a) :
    pIter (p.set a val) m v = pIter p m v := by
  induction m generalizing v with
  | zero => rfl
  | succ m ih =>
    have hv : v ≠ a := by
      intro hva
      exact h 0 (Nat.succ_pos m) (by simp [pIter, hva])
    have hset : (p.set a val).getD v none = p.getD v none := by
      rw [list_getD_eq, list_getD_eq, List.getElem?_set,
        if_neg (fun hav => hv hav.symm)]
    show (match (p.set a val).getD v none with
      | none => none
      | some u => pIter (p.set a val) m u) = (match p.getD v none with
      | none => none
      | some u => pIter p m u)
    rw [hset]
    cases hp : p.getD v none with
    | none => rfl
    | some u =>
      refine ih fun i hi hia => ?_
      refine h (i + 1) (Nat.succ_lt_succ hi) ?_
      show (match (p.set a val).getD v none with
        | none => none
        | some w => pIter (p.set a val) i w) = some a
      rw [hset, hp]
      exact hia

theorem chainMono {g : Graph} {s : Nat} {d p : List (Option Nat)} {heap : List State}
    (inv : Inv0 g s d p heap) :
    ∀ m u v, pIter p m u = some v →
      u = v ∨ ∃ du dv, d[u]? = some (some du) ∧ d[v]? = some (some dv) ∧ dv ≤ du := by
  intro m
  induction m with
  | zero =>
    intro u v h
    simp only [pIter, Option.some.injEq] at h
    exact Or.inl h
  | succ m ih =>
    intro u v h
    show u = v ∨ _
    have h' : (match p.getD u none with
      | none => none
      | some w => pIter p m w) = some v := h
    cases hp : p.getD u none with
    | none => rw [hp] at h'; cases h'
    | some w =>
      rw [hp] at h'
      obtain ⟨e, he, _, dw, du, hdw, hdu, hle⟩ := inv.pedge u w (getD_opt.mp hp)
      have hwu : dw ≤ du := Nat.le_trans (Nat.le_add_right dw e.cost) hle
      rcases ih w v h' with rfl | ⟨dw', dv, hdw', hdv, hvw⟩
      · exact Or.inr ⟨du, dw, hdu, hdw, hwu⟩
      · rw [hdw] at hdw'
        injection hdw' with h2
        injection h2 with h3
        subst h3
        exact Or.inr ⟨du, dv, hdu, hdv, Nat.le_trans hvw hwu⟩

theorem Acyclic.set_of_no_chain {p : List (Option Nat)} (hp : Acyclic p) {a u : Nat}
    (hchain : ∀ m, pIter p m u ≠ some a) :
    Acyclic (p.set a (some u)) := by
  by_cases ha : a < p.length
  case neg =>
    rw [List.set_eq_of_length_le (Nat.le_of_not_lt ha)]
    exact hp
  case pos =>
  have hgeta : (p.set a (some u)).getD a none = some u := by
    rw [list_getD_eq, List.getElem?_set]
    simp [ha]
  have key : ∀ j, pIter (p.set a (some u)) (j + 1) a ≠ some a := by
    intro j
    induction j using Nat.strong_induction_on with
    | _ j ih =>
      intro hcyc
      have hstep : pIter (p.set a (some u)) j u = some a := by
        have : pIter (p.set a (some u)) (j + 1) a = pIter (p.set a (some u)) j u := by
          show (match (p.set a (some u)).getD a none with
            | none => none
            | some w => pIter (p.set a (some u)) j w) = _
          rw [hgeta]
        rw [← this]
        exact hcyc
      by_cases hmid : ∃ i < j, pIter (p.set a (some u)) i u = some a
      · obtain ⟨i, hij, hia⟩ := hmid
        refine ih i hij ?_
        show (match (p.set a (some u)).getD a none with
          | none => none
          | some w => pIter (p.set a (some u)) i w) = some a
        rw [hgeta]
        exact hia
      · push_neg at hmid
        have := pIter_set_ne hmid
        rw [this] at hstep
        exact hchain j hstep
  intro v k hcyc
  by_cases hthrough : ∃ i, i ≤ k ∧ pIter (p.set a (some u)) i v = some a
  · obtain ⟨i, hik, hia⟩ := hthrough
    have h1 : pIter (p.set a (some u)) (i + (k + 1)) v = pIter (p.set a (some u)) (k + 1) a := by
      rw [pIter_add, hia]
    have h2 : pIter (p.set a (some u)) ((k + 1) + i) v = some a := by
      rw [pIter_add, hcyc]
      exact hia
    rw [Nat.add_comm (k + 1) i] at h2
    rw [h2] at h1
    exact key k h1.symm
  · push_neg at hthrough
    have hne : ∀ i < k + 1, pIter (p.set a (some u)) i v ≠ some a :=
      fun i hi => hthrough i (Nat.lt_succ_iff.mp hi)
    rw [pIter_set_ne hne] at hcyc
    exact hp v k hcyc

theorem no_chain_to_improved {g : Graph} {s : Nat} {d p : List (Option Nat)}
    {heap : List State} (inv : Inv0 g s d p heap) {u c a : Nat}
    (hu : d[u]? = some (some c))
    (himp : d[a]? = some none ∨ ∃ dv w, d[a]? = some (some dv) ∧ c + w < dv) :
    ∀ m, pIter p m u ≠ some a := by
  intro m hm
  rcases chainMono inv m u a hm with rfl | ⟨du, da, hdu, hda, hle⟩
  · rcases himp with h | ⟨dv, w, h, hlt⟩
    · rw [hu] at h; cases h
    · rw [hu] at h
      injection h with h'
      injection h' with h''
      omega
  · rcases himp with h | ⟨dv, w, h, hlt⟩
    · rw [hda] at h
      injection h with h'
      cases h'
    · rw [hda] at h
      injection h with h'
      injection h' with h''
      rw [hu] at hdu
      injection hdu with h3
      injection h3 with h4
      omega

/-! ### Preservation of the invariant by the relaxation of one edge -/

theorem set_getElem?_self {l : List α} {a : Nat} (h : a < l.length) (x : α) :
    (l.set a x)[a]? = some x := by
  rw [List.getElem?_set]
  simp [h]

theorem set_getElem?_ne {l : List α} {a v : Nat} (h : a ≠ v) (x : α) :
    (l.set a x)[v]? = l[v]? := by
  rw [List.getElem?_set]
  simp [h]

theorem edgesOf_mem {g : Graph} {u : Nat} {e : Edge} (he : e ∈ edgesOf g u) :
    ∃ l, g.list[u]? = some l ∧ e ∈ l := by
  unfold edgesOf at he
  rw [List.getD_eq_getElem?_getD] at he
  cases h : g.list[u]? with
  | none => rw [h] at he; simp at he
  | some l => rw [h] at he; exact ⟨l, rfl, he⟩

theorem edge_target_lt {g : Graph} (hg : GraphWF g) {u : Nat} {e : Edge}
    (he : e ∈ edgesOf g u) : e.node < g.list.length := by
  obtain ⟨l, hl, hel⟩ := edgesOf_mem he
  exact hg.2.1 l (List.getElem?_mem hl) e hel

/-! ### Properties of the simple-path certificates -/

theorem trail_isWalk {g : Graph} {d : List (Option Nat)} {s v c : Nat} {vs : List Nat}
    (h : Trail g d s v c vs) : IsWalk g s v c := by
  induction h with
  | nil _ => exact IsWalk.nil
  | snoc e he _ _ _ ih => exact IsWalk.snoc e he ih

theorem trail_mem_dom {g : Graph} {d : List (Option Nat)} {s v c : Nat} {vs : List Nat}
    (h : Trail g d s v c vs) : ∀ x ∈ vs, ∃ dx, d[x]? = some (some dx) ∧ dx ≤ c := by
  induction h with
  | nil h0 =>
    intro x hx
    rw [List.mem_singleton] at hx
    subst hx
    exact ⟨0, h0, Nat.le_refl 0⟩
  | snoc e he hnew hdom hw ih =>
    intro x hx
    rcases List.mem_append.mp hx with hx | hx
    · obtain ⟨dx, hdx, hle⟩ := ih x hx
      exact ⟨dx, hdx, hle.trans (Nat.le_add_right _ _)⟩
    · rw [List.mem_singleton] at hx
      subst hx
      exact hdom

theorem trail_nodup {g : Graph} {d : List (Option Nat)} {s v c : Nat} {vs : List Nat}
    (h : Trail g d s v c vs) : vs.Nodup := by
  induction h with
  | nil _ => exact List.nodup_singleton _
  | snoc e he hnew hdom hw ih =>
    rw [List.nodup_append]
    exact ⟨ih, List.nodup_singleton _, by simpa using fun hmem => hnew hmem⟩

theorem trail_row_bound {g : Graph} {d : List (Option Nat)} {s v c : Nat} {vs : List Nat}
    (h : Trail g d s v c vs) : c + rowSum g v ≤ (vs.map (rowSum g)).sum := by
  induction h with
  | nil _ => simp
  | snoc e he hnew hdom hw ih =>
    have hc : e.cost ≤ rowSum g _ :=
      List.single_le_sum (fun x _ => Nat.zero_le x) _ (List.mem_map_of_mem Edge.cost he)
    rw [List.map_append, List.sum_append]
    simp only [List.map_cons, List.map_nil, List.sum_cons, List.sum_nil]
    omega

theorem nodup_map_sum_le (f : Nat → Nat) {vs : List Nat} {n : Nat}
    (hnd : vs.Nodup) (hlt : ∀ x ∈ vs, x < n) :
    (vs.map f).sum ≤ ((List.range n).map f).sum := by
  obtain ⟨l, hperm, hsl⟩ :=
    hnd.subperm (fun x hx => List.mem_range.mpr (hlt x hx))
  rw [← (hperm.map f).sum_eq]
  exact (hsl.map f).sum_le_sum (fun a _ => Nat.zero_le a)

theorem trail_cost_bound {g : Graph} {d : List (Option Nat)} {s v c : Nat} {vs : List Nat}
    (hdlen : d.length = g.list.length) (h : Trail g d s v c vs) :
    c + rowSum g v ≤ totalCost g := by
  refine (trail_row_bound h).trans ?_
  refine nodup_map_sum_le _ (trail_nodup h) ?_
  intro x hx
  obtain ⟨dx, hdx, _⟩ := trail_mem_dom h x hx
  have := getElem?_some_lt hdx
  omega

/-- The key no-overflow fact: the sum the relaxation step forms from a
certified distance never reaches `2 ^ 64` when the total edge cost does
not, so the wrapping addition agrees with the unbounded one. -/
theorem trail_wadd {g : Graph} {d : List (Option Nat)} {s u c : Nat} {vs : List Nat}
    (hdlen : d.length = g.list.length) (hS : totalCost g < 2 ^ 64)
    (h : Trail g d s u c vs) {e : Edge} (he : e ∈ edgesOf g u) :
    wadd c e.cost = c + e.cost := by
  have hb := trail_cost_bound hdlen h
  have hc : e.cost ≤ rowSum g u :=
    List.single_le_sum (fun x _ => Nat.zero_le x) _ (List.mem_map_of_mem Edge.cost he)
  unfold wadd
  exact Nat.mod_eq_of_lt (by omega)

/-- Certificates survive one improving update of the distance array. -/
theorem trail_mono_set {g : Graph} {d : List (Option Nat)} {s a nc : Nat}
    (himp : d[a]? = some none ∨ ∃ da, d[a]? = some (some da) ∧ nc < da) :
    ∀ {v c : Nat} {vs : List Nat}, Trail g d s v c vs →
      Trail g (d.set a (some nc)) s v c vs := by
  intro v c vs h
  induction h with
  | nil h0 =>
    refine Trail.nil ?_
    have hne : a ≠ s := by
      intro heq
      subst heq
      rcases himp with h1 | ⟨da, h1, h2⟩
      · rw [h0] at h1
        exact Option.noConfusion (Option.some.inj h1)
      · rw [h0] at h1
        have : (0 : Nat) = da := Option.some.inj (Option.some.inj h1)
        omega
    rw [set_getElem?_ne hne]
    exact h0
  | snoc e he hnew hdom hw ih =>
    refine Trail.snoc e he hnew ?_ ih
    obtain ⟨dx, hdx, hle⟩ := hdom
    by_cases hax : a = e.node
    · subst hax
      rcases himp with h1 | ⟨da, h1, h2⟩
      · rw [hdx] at h1
        exact absurd (Option.some.inj h1) (by simp)
      · rw [hdx] at h1
        have hda := Option.some.inj (Option.some.inj h1)
        refine ⟨nc, set_getElem?_self (getElem?_some_lt hdx) _, by omega⟩
    · refine ⟨dx, ?_, hle⟩
      rw [set_getElem?_ne hax]
      exact hdx

/-- The invariant holding midway through the edge loop of one non-stale
pop of `(c, u)`: the edges in `done` are already relaxed against `c`,
and every other known vertex is still heap-covered or fully relaxed. -/
structure MidInv (g : Graph) (s u c : Nat) (done : List Edge)
    (d p : List (Option Nat)) (heap : List State) : Prop where
  core : Inv0 g s d p heap
  dcur : d[u]? = some (some c)
  freshm : ∀ u' du', u' ≠ u → d[u']? = some (some du') →
    State.mk du' u' ∈ heap ∨ Relaxed g d u' du'
  donerel : ∀ e ∈ done, ∃ dv, d[e.node]? = some (some dv) ∧ dv ≤ c + e.cost

theorem midinv_keep {g : Graph} {s u c : Nat} {done : List Edge}
    {d p : List (Option Nat)} {heap : List State}
    (mi : MidInv g s u c done d p heap) {e : Edge}
    (hkeep : ∃ dv, d[e.node]? = some (some dv) ∧ dv ≤ c + e.cost) :
    MidInv g s u c (done ++ [e]) d p heap where
  core := mi.core
  dcur := mi.dcur
  freshm := mi.freshm
  donerel := by
    intro e' he'
    rcases List.mem_append.mp he' with h | h
    · exact mi.donerel e' h
    · rw [List.mem_singleton.mp h]
      exact hkeep

theorem midinv_improve {g : Graph} {s u c : Nat} {done : List Edge}
    {d p : List (Option Nat)} {heap : List State} (hg : GraphWF g)
    (mi : MidInv g s u c done d p heap) {e : Edge} (he : e ∈ edgesOf g u)
    (himp : d[e.node]? = some none ∨
      ∃ dv, d[e.node]? = some (some dv) ∧ c + e.cost < dv) :
    MidInv g s u c (done ++ [e]) (d.set e.node (some (c + e.cost)))
      (p.set e.node (some u)) (State.mk (c + e.cost) e.node :: heap) := by
  have halt : e.node < d.length := mi.core.dlen ▸ edge_target_lt hg he
  have haltp : e.node < p.length := mi.core.plen ▸ edge_target_lt hg he
  have hlt_of_old : ∀ {dv'}, d[e.node]? = some (some dv') → c + e.cost < dv' := by
    intro dv' hdv'
    rcases himp with h | ⟨dv, h, hlt⟩
    · rw [hdv'] at h; injection h with h1; cases h1
    · rw [hdv'] at h
      injection h with h1
      injection h1 with h2
      omega
  have hne_s : e.node ≠ s := by
    intro hs
    have := hlt_of_old (hs ▸ mi.core.dzero)
    omega
  have hne_u : e.node ≠ u := by
    intro hu
    have := hlt_of_old (hu ▸ mi.dcur)
    omega
  have hDself : (d.set e.node (some (c + e.cost)))[e.node]? = some (some (c + e.cost)) :=
    set_getElem?_self halt _
  have hDne : ∀ {v : Nat}, v ≠ e.node →
      (d.set e.node (some (c + e.cost)))[v]? = d[v]? :=
    fun hv => set_getElem?_ne (fun h => hv h.symm) _
  have hPself : (p.set e.node (some u))[e.node]? = some (some u) :=
    set_getElem?_self haltp _
  have hPne : ∀ {v : Nat}, v ≠ e.node →
      (p.set e.node (some u))[v]? = p[v]? :=
    fun hv => set_getElem?_ne (fun h => hv h.symm) _
  refine ⟨⟨?_, ?_, ?_, ?_, ?_, ?_, ?_, ?_, ?_⟩, ?_, ?_, ?_⟩
  · rw [List.length_set]; exact mi.core.dlen
  · rw [List.length_set]; exact mi.core.plen
  · rw [hDne hne_s.symm]; exact mi.core.dzero
  · intro v dv hv
    by_cases hva : v = e.node
    · subst hva
      rw [hDself] at hv
      injection hv with h1
      injection h1 with h2
      rw [← h2]
      obtain ⟨vs, htr⟩ := mi.core.sound u c mi.dcur
      have hnotin : e.node ∉ vs := by
        intro hmem
        obtain ⟨dx, hdx, hle⟩ := trail_mem_dom htr e.node hmem
        have := hlt_of_old hdx
        omega
      exact ⟨vs ++ [e.node],
        Trail.snoc e he hnotin ⟨c + e.cost, hDself, Nat.le_refl _⟩ (trail_mono_set himp htr)⟩
    · rw [hDne (fun h => hva h)] at hv
      obtain ⟨vs, htr⟩ := mi.core.sound v dv hv
      exact ⟨vs, trail_mono_set himp htr⟩
  · intro st hst
    rcases List.mem_cons.mp hst with rfl | hst'
    · exact ⟨c + e.cost, hDself, Nat.le_refl _⟩
    · obtain ⟨dv, hdv, hle⟩ := mi.core.hbound st hst'
      by_cases hpa : st.position = e.node
      · rw [hpa] at hdv ⊢
        have := hlt_of_old hdv
        exact ⟨c + e.cost, hDself, by omega⟩
      · rw [hDne hpa]
        exact ⟨dv, hdv, hle⟩
  · intro v dv hvs hv
    by_cases hva : v = e.node
    · subst hva
      exact ⟨u, hPself⟩
    · rw [hDne hva] at hv
      obtain ⟨w, hw⟩ := mi.core.psome v dv hvs hv
      exact ⟨w, by rw [hPne hva]; exact hw⟩
  · rw [hPne hne_s.symm]; exact mi.core.pstart
  · intro v w hvw
    by_cases hva : v = e.node
    · subst hva
      rw [hPself] at hvw
      injection hvw with h1
      injection h1 with h2
      subst h2
      exact ⟨e, he, rfl, c, c + e.cost, by rw [hDne hne_u.symm]; exact mi.dcur,
        hDself, Nat.le_refl _⟩
    · rw [hPne hva] at hvw
      obtain ⟨e', he', hnode, dw, dv, hdw, hdv, hle⟩ := mi.core.pedge v w hvw
      refine ⟨e', he', hnode, ?_⟩
      by_cases hwa : w = e.node
      · subst hwa
        have := hlt_of_old hdw
        exact ⟨c + e.cost, dv, hDself, by rw [hDne hva]; exact hdv, by omega⟩
      · exact ⟨dw, dv, by rw [hDne hwa]; exact hdw, by rw [hDne hva]; exact hdv, hle⟩
  · exact Acyclic.set_of_no_chain mi.core.acyc
      (no_chain_to_improved mi.core mi.dcur
        (by rcases himp with h | ⟨dv, h, hlt⟩
            · exact Or.inl h
            · exact Or.inr ⟨dv, e.cost, h, hlt⟩))
  · rw [hDne hne_u.symm]; exact mi.dcur
  · intro u' du' hu'u hu'
    by_cases hua : u' = e.node
    · subst hua
      rw [hDself] at hu'
      injection hu' with h1
      injection h1 with h2
      rw [← h2]
      exact Or.inl (List.mem_cons_self _ _)
    · rw [hDne hua] at hu'
      rcases mi.freshm u' du' hu'u hu' with hmem | hrel
      · exact Or.inl (List.mem_cons_of_mem _ hmem)
      · refine Or.inr fun e' he' => ?_
        obtain ⟨dv, hdv, hle⟩ := hrel e' he'
        by_cases hta : e'.node = e.node
        · rw [hta] at hdv ⊢
          have := hlt_of_old hdv
          exact ⟨c + e.cost, hDself, by omega⟩
        · rw [hDne hta]
          exact ⟨dv, hdv, hle⟩
  · intro e' he'
    rcases List.mem_append.mp he' with h | h
    · obtain ⟨dv, hdv, hle⟩ := mi.donerel e' h
      by_cases hta : e'.node = e.node
      · rw [hta] at hdv ⊢
        have := hlt_of_old hdv
        exact ⟨c + e.cost, hDself, by omega⟩
      · rw [hDne hta]
        exact ⟨dv, hdv, hle⟩
    · rw [List.mem_singleton.mp h]
      exact ⟨c + e.cost, hDself, Nat.le_refl _⟩

/-! ### The edge loop and the pop step preserve the invariant -/

theorem relaxEdges_inv {g : Graph} {s u c : Nat} (hg : GraphWF g)
    (hS : totalCost g < 2 ^ 64) :
    ∀ (es done : List Edge) (d p : List (Option Nat)) (heap : List State),
      edgesOf g u = done ++ es → MidInv g s u c done d p heap →
      ∃ d' p' h', relaxEdges c u es d p heap = some (d', p', h') ∧
        MidInv g s u c (edgesOf g u) d' p' h' := by
  intro es
  induction es with
  | nil =>
    intro done d p heap hsplit mi
    refine ⟨d, p, heap, rfl, ?_⟩
    rw [List.append_nil] at hsplit
    rw [hsplit]
    exact mi
  | cons e es ih =>
    intro done d p heap hsplit mi
    have hemem : e ∈ edgesOf g u := by
      rw [hsplit]
      exact List.mem_append.mpr (Or.inr (List.mem_cons_self _ _))
    have halt : e.node < d.length := mi.core.dlen ▸ edge_target_lt hg hemem
    have haltp : e.node < p.length := mi.core.plen ▸ edge_target_lt hg hemem
    have hwadd : wadd c e.cost = c + e.cost := by
      obtain ⟨vs, htr⟩ := mi.core.sound u c mi.dcur
      exact trail_wadd mi.core.dlen hS htr hemem
    have hsplit' : edgesOf g u = (done ++ [e]) ++ es := by
      rw [hsplit, List.append_assoc, List.singleton_append]
    obtain ⟨old, hold⟩ : ∃ old, d[e.node]? = some old :=
      ⟨_, List.getElem?_eq_getElem halt⟩
    cases old with
    | none =>
      obtain ⟨d', p', h', heq, mif⟩ := ih (done ++ [e]) _ _ _ hsplit'
        (midinv_improve hg mi hemem (Or.inl hold))
      refine ⟨d', p', h', ?_, mif⟩
      simp only [relaxEdges, hold, haltp, hwadd, if_true]
      exact heq
    | some dv =>
      by_cases hlt : c + e.cost < dv
      · obtain ⟨d', p', h', heq, mif⟩ := ih (done ++ [e]) _ _ _ hsplit'
          (midinv_improve hg mi hemem (Or.inr ⟨dv, hold, hlt⟩))
        refine ⟨d', p', h', ?_, mif⟩
        simp [relaxEdges, hold, haltp, hwadd, hlt]
        exact heq
      · obtain ⟨d', p', h', heq, mif⟩ := ih (done ++ [e]) _ _ _ hsplit'
          (midinv_keep mi ⟨dv, hold, Nat.le_of_not_lt hlt⟩)
        refine ⟨d', p', h', ?_, mif⟩
        simp [relaxEdges, hold, haltp, hwadd, hlt]
        exact heq

theorem pop_stale_inv {g : Graph} {s : Nat} {d p : List (Option Nat)}
    {heap rest : List State} {st : State} {dv : Nat}
    (inv : Inv g s d p heap) (hpop : popMax heap = some (st, rest))
    (hd : d[st.position]? = some (some dv)) (hst : dv < st.cost) :
    Inv g s d p rest := by
  obtain ⟨hmem, hrest⟩ := popMax_eq_some hpop
  refine ⟨⟨inv.core.dlen, inv.core.plen, inv.core.dzero, inv.core.sound, ?_,
    inv.core.psome, inv.core.pstart, inv.core.pedge, inv.core.acyc⟩, ?_⟩
  · intro st' hst'
    exact inv.core.hbound st' (List.erase_subset _ _ (hrest ▸ hst'))
  · intro u du hu
    rcases inv.fresh u du hu with hmemu | hrel
    · refine Or.inl ?_
      rw [hrest]
      refine (List.mem_erase_of_ne ?_).mpr hmemu
      intro hcontra
      have h1 : u = st.position := congrArg State.position hcontra
      have h2 : du = st.cost := congrArg State.cost hcontra
      rw [h1] at hu
      rw [hu] at hd
      injection hd with h3
      injection h3 with h4
      omega
    · exact Or.inr hrel

theorem pop_midinv {g : Graph} {s : Nat} {d p : List (Option Nat)}
    {heap rest : List State} {st : State} {dv : Nat}
    (inv : Inv g s d p heap) (hpop : popMax heap = some (st, rest))
    (hd : d[st.position]? = some (some dv)) (hns : ¬ st.cost > dv) :
    MidInv g s st.position st.cost [] d p rest := by
  obtain ⟨hmem, hrest⟩ := popMax_eq_some hpop
  obtain ⟨dv', hdv', hle'⟩ := inv.core.hbound st hmem
  have hdveq : dv' = dv := by
    rw [hd] at hdv'
    injection hdv' with h1
    injection h1 with h2
    exact h2.symm
  have hcost : dv = st.cost := by omega
  refine ⟨⟨inv.core.dlen, inv.core.plen, inv.core.dzero, inv.core.sound, ?_,
    inv.core.psome, inv.core.pstart, inv.core.pedge, inv.core.acyc⟩,
    hcost ▸ hd, ?_, by simp⟩
  · intro st' hst'
    exact inv.core.hbound st' (List.erase_subset _ _ (hrest ▸ hst'))
  · intro u' du' hu'ne hu'
    rcases inv.fresh u' du' hu' with hmemu | hrel
    · refine Or.inl ?_
      rw [hrest]
      refine (List.mem_erase_of_ne ?_).mpr hmemu
      intro hcontra
      exact hu'ne (congrArg State.position hcontra)
    · exact Or.inr hrel

theorem midinv_complete {g : Graph} {s u c : Nat} {d p : List (Option Nat)}
    {heap : List State} (mi : MidInv g s u c (edgesOf g u) d p heap) :
    Inv g s d p heap := by
  refine ⟨mi.core, ?_⟩
  intro u' du' hu'
  by_cases huu : u' = u
  · subst huu
    have hc : du' = c := by
      rw [mi.dcur] at hu'
      injection hu' with h1
      injection h1 with h2
      exact h2.symm
    subst hc
    exact Or.inr fun e he => mi.donerel e he
  · exact mi.freshm u' du' huu hu'

theorem popMax_eq_none {heap : List State} (h : popMax heap = none) : heap = [] := by
  cases heap with
  | nil => rfl
  | cons x l => simp [popMax] at h

/-- Running the relaxation loop from any state satisfying the invariant
terminates without a panic and yields a state satisfying the invariant
with an empty heap. -/
theorem dijkstraLoop_inv {g : Graph} {s : Nat} (hg : GraphWF g)
    (hS : totalCost g < 2 ^ 64)
    (d p : List (Option Nat)) (heap : List State) :
    Inv g s d p heap →
    ∃ d' p', dijkstraLoop g d p heap = some (d', p') ∧ Inv g s d' p' [] := by
  induction d, p, heap using dijkstraLoop.induct g with
  | case1 d p heap hpop =>
    intro inv
    have := popMax_eq_none hpop
    subst this
    exact ⟨d, p, dijkstraLoop_empty hpop, inv⟩
  | case2 d p heap st rest hpop hd =>
    intro inv
    obtain ⟨hmem, _⟩ := popMax_eq_some hpop
    obtain ⟨dv, hdv, _⟩ := inv.core.hbound st hmem
    rw [hdv] at hd
    cases hd
  | case3 d p heap st rest hpop old hd hstale ih =>
    intro inv
    cases old with
    | none => simp at hstale
    | some dv =>
      simp only [decide_eq_true_eq] at hstale
      obtain ⟨d', p', heq, invf⟩ := ih (pop_stale_inv inv hpop hd hstale)
      exact ⟨d', p', (dijkstraLoop_stale hpop hd hstale).trans heq, invf⟩
  | case4 d p heap st rest hpop old hd hstale hg' =>
    intro inv
    obtain ⟨hmem, _⟩ := popMax_eq_some hpop
    obtain ⟨dv, hdv, _⟩ := inv.core.hbound st hmem
    have hlt : st.position < g.list.length :=
      inv.core.dlen ▸ getElem?_some_lt hdv
    rw [List.getElem?_eq_none_iff] at hg'
    omega
  | case5 d p heap st rest hpop old hd hstale edges hedges hrel =>
    intro inv
    obtain ⟨hmem, _⟩ := popMax_eq_some hpop
    obtain ⟨dv, hdv, _⟩ := inv.core.hbound st hmem
    have holdv : old = some dv := Option.some.inj (hd.symm.trans hdv)
    subst holdv
    have hns : ¬ st.cost > dv := by
      intro hgt
      exact hstale (by simp [hgt])
    have hsplit : edgesOf g st.position = [] ++ edges := by
      unfold edgesOf
      rw [List.getD_eq_getElem?_getD, hedges]
      rfl
    obtain ⟨d', p', h', heq, _⟩ :=
      relaxEdges_inv hg hS edges [] d p rest hsplit (pop_midinv inv hpop hd hns)
    rw [heq] at hrel
    cases hrel
  | case6 d p heap st rest hpop old hd hstale edges hedges d2 p2 h2 hrel ih =>
    intro inv
    obtain ⟨hmem, _⟩ := popMax_eq_some hpop
    obtain ⟨dv, hdv, _⟩ := inv.core.hbound st hmem
    have holdv : old = some dv := Option.some.inj (hd.symm.trans hdv)
    subst holdv
    have hns : ¬ st.cost > dv := by
      intro hgt
      exact hstale (by simp [hgt])
    have hsplit : edgesOf g st.position = [] ++ edges := by
      unfold edgesOf
      rw [List.getD_eq_getElem?_getD, hedges]
      rfl
    obtain ⟨d', p', h', heq, mif⟩ :=
      relaxEdges_inv hg hS edges [] d p rest hsplit (pop_midinv inv hpop hd hns)
    rw [heq] at hrel
    injection hrel with hrel'
    obtain ⟨rfl, rfl, rfl⟩ : d' = d2 ∧ p' = p2 ∧ h' = h2 := by
      refine ⟨congrArg Prod.fst hrel', ?_, ?_⟩
      · exact congrArg Prod.fst (congrArg Prod.snd hrel')
      · exact congrArg Prod.snd (congrArg Prod.snd hrel')
    have hstale' : (match (some dv : Option Nat) with
        | none => false | some x => decide (st.cost > x)) = false := by
      simp only [decide_eq_false_iff_not]
      exact hns
    obtain ⟨df, pf, heqf, invf⟩ := ih (midinv_complete mif)
    exact ⟨df, pf, (dijkstraLoop_go (some dv) hpop hstale' hd hedges heq).trans heqf, invf⟩

/-! ### The invariant at termination, and the initial state -/

theorem final_relaxed {g : Graph} {s : Nat} {d p : List (Option Nat)}
    (inv : Inv g s d p []) :
    ∀ u du, d[u]? = some (some du) → Relaxed g d u du := by
  intro u du hu
  rcases inv.fresh u du hu with h | h
  · simp at h
  · exact h

theorem final_lower_bound {g : Graph} {s : Nat} {d p : List (Option Nat)}
    (inv : Inv g s d p []) :
    ∀ v c, IsWalk g s v c → ∃ dv, d[v]? = some (some dv) ∧ dv ≤ c := by
  intro v c hw
  induction hw with
  | nil => exact ⟨0, inv.core.dzero, Nat.le_refl 0⟩
  | snoc e he hw ih =>
    obtain ⟨du, hdu, hduc⟩ := ih
    obtain ⟨dv, hdv, hle⟩ := final_relaxed inv _ du hdu e he
    exact ⟨dv, hdv, by omega⟩

theorem final_pedge_exact {g : Graph} {s : Nat} {d p : List (Option Nat)}
    (inv : Inv g s d p []) :
    ∀ v w, p[v]? = some (some w) → ∃ e ∈ edgesOf g w, e.node = v ∧
      ∃ dw dv, d[w]? = some (some dw) ∧ d[v]? = some (some dv) ∧ dw + e.cost = dv := by
  intro v w hvw
  obtain ⟨e, he, hnode, dw, dv, hdw, hdv, hle⟩ := inv.core.pedge v w hvw
  obtain ⟨dv', hdv', hle'⟩ := final_relaxed inv w dw hdw e he
  rw [hnode, hdv] at hdv'
  injection hdv' with h1
  injection h1 with h2
  subst h2
  exact ⟨e, he, hnode, dw, dv, hdw, hdv, by omega⟩

theorem initial_inv {g : Graph} {s : Nat} (hs : s < g.list.length) :
    Inv g s ((List.replicate g.list.length (none : Option Nat)).set s (some 0))
      (List.replicate g.list.length (none : Option Nat)) [State.mk 0 s] := by
  have hlen : (List.replicate g.list.length (none : Option Nat)).length = g.list.length :=
    List.length_replicate _ _
  have hs' : s < (List.replicate g.list.length (none : Option Nat)).length := by
    rw [hlen]; exact hs
  have hdzero : ((List.replicate g.list.length (none : Option Nat)).set s
      (some 0))[s]? = some (some 0) := set_getElem?_self hs' _
  have hother : ∀ {v : Nat}, v ≠ s →
      ((List.replicate g.list.length (none : Option Nat)).set s (some 0))[v]? =
      (List.replicate g.list.length (none : Option Nat))[v]? :=
    fun hv => set_getElem?_ne (fun h => hv h.symm) _
  have hrep : ∀ {v dv : Nat},
      (List.replicate g.list.length (none : Option Nat))[v]? ≠ some (some dv) := by
    intro v dv h
    rw [List.getElem?_replicate] at h
    by_cases hv : v < g.list.length
    · rw [if_pos hv] at h
      injection h with h1
      cases h1
    · rw [if_neg hv] at h
      cases h
  have hsome : ∀ {v dv : Nat},
      ((List.replicate g.list.length (none : Option Nat)).set s (some 0))[v]? =
        some (some dv) → v = s ∧ dv = 0 := by
    intro v dv h
    by_cases hv : v = s
    · subst hv
      rw [hdzero] at h
      injection h with h1
      injection h1 with h2
      exact ⟨rfl, h2.symm⟩
    · rw [hother hv] at h
      exact absurd h hrep
  refine ⟨⟨?_, ?_, hdzero, ?_, ?_, ?_, ?_, ?_, ?_⟩, ?_⟩
  · rw [List.length_set]; exact hlen
  · exact hlen
  · intro v dv h
    obtain ⟨hv, rfl⟩ := hsome h
    subst hv
    exact ⟨[v], Trail.nil hdzero⟩
  · intro st hst
    rw [List.mem_singleton.mp hst]
    exact ⟨0, hdzero, Nat.le_refl 0⟩
  · intro v dv hvs h
    exact absurd ((hsome h).1) hvs
  · rw [List.getElem?_replicate, if_pos hs]
  · intro v w h
    rw [List.getElem?_replicate] at h
    by_cases hv : v < g.list.length
    · rw [if_pos hv] at h
      injection h with h1
      cases h1
    · rw [if_neg hv] at h
      cases h
  · intro v k hcyc
    have : pIter (List.replicate g.list.length (none : Option Nat)) (k + 1) v = none := by
      show (match (List.replicate g.list.length (none : Option Nat)).getD v none with
        | none => none
        | some u => pIter _ k u) = none
      rw [list_getD_eq, List.getElem?_replicate]
      by_cases hv : v < g.list.length
      · rw [if_pos hv]; rfl
      · rw [if_neg hv]; rfl
    rw [this] at hcyc
    cases hcyc
  · intro u du h
    obtain ⟨rfl, rfl⟩ := hsome h
    exact Or.inl (List.mem_singleton.mpr rfl)

/-- The main loop, started as `find_shortest_path` starts it, terminates
without a panic in a state satisfying the invariant. -/
theorem dijkstra_solved {g : Graph} {s : Nat} (hg : GraphWF g)
    (hS : totalCost g < 2 ^ 64) (hs : s < g.list.length) :
    ∃ d p, dijkstraLoop g ((List.replicate g.list.length (none : Option Nat)).set s (some 0))
      (List.replicate g.list.length (none : Option Nat)) [State.mk 0 s] = some (d, p) ∧
      Inv g s d p [] :=
  dijkstraLoop_inv hg hS _ _ _ (initial_inv hs)

/-! ### Termination of the parent chain -/

theorem pIter_step {p : List (Option Nat)} {i v x y : Nat}
    (hx : pIter p i v = some x) (hy : p.getD x none = some y) :
    pIter p (i + 1) v = some y := by
  rw [pIter_add, hx]
  show (match p.getD x none with | none => none | some u => pIter p 0 u) = some y
  rw [hy]
  rfl

theorem pIter_inj {p : List (Option Nat)} (acyc : Acyclic p) {v i j x : Nat}
    (hi : pIter p i v = some x) (hj : pIter p j v = some x) : i = j := by
  rcases Nat.lt_trichotomy i j with h | h | h
  · exfalso
    obtain ⟨k, rfl⟩ : ∃ k, j = i + (k + 1) := ⟨j - i - 1, by omega⟩
    rw [pIter_add, hi] at hj
    exact acyc x k hj
  · exact h
  · exfalso
    obtain ⟨k, rfl⟩ : ∃ k, i = j + (k + 1) := ⟨i - j - 1, by omega⟩
    rw [pIter_add, hj] at hi
    exact acyc x k hi

/-- Under the invariant the parent chain from any known vertex reaches a
parentless vertex in at most `p.length` steps. -/
theorem chain_terminates {g : Graph} {s : Nat} {d p : List (Option Nat)}
    (inv : Inv g s d p []) {v dv : Nat} (hv : d[v]? = some (some dv)) :
    ∃ m, m < p.length + 1 ∧ pIter p (m + 1) v = none := by
  by_contra hcon
  push_neg at hcon
  have hN : p.length = g.list.length := inv.core.plen
  have hdN : d.length = g.list.length := inv.core.dlen
  set N := g.list.length with hNdef
  have hsome : ∀ i, i ≤ N + 1 → ∃ x, pIter p i v = some x ∧ x < N ∧
      ∃ dx, d[x]? = some (some dx) := by
    intro i
    induction i with
    | zero =>
      intro _
      exact ⟨v, rfl, hdN ▸ getElem?_some_lt hv, dv, hv⟩
    | succ i ih =>
      intro hi
      obtain ⟨x, hx, hxN, dx, hdx⟩ := ih (by omega)
      have hnn : pIter p (i + 1) v ≠ none := hcon i (by omega)
      cases hy : p.getD x none with
      | none =>
        exfalso
        apply hnn
        rw [pIter_add, hx]
        show (match p.getD x none with | none => none | some u => pIter p 0 u) = none
        rw [hy]
      | some y =>
        obtain ⟨e, he, hnode, dy', dx', hdy', hdx', _⟩ :=
          inv.core.pedge x y (getD_opt.mp hy)
        exact ⟨y, pIter_step hx hy, hdN ▸ getElem?_some_lt hdy', dy', hdy'⟩
  have hinj : ∀ i ∈ List.range (N + 1), ∀ j ∈ List.range (N + 1),
      (pIter p i v).getD 0 = (pIter p j v).getD 0 → i = j := by
    intro i hi j hj hij
    obtain ⟨x, hx, _, _⟩ := hsome i (by have := List.mem_range.mp hi; omega)
    obtain ⟨y, hy, _, _⟩ := hsome j (by have := List.mem_range.mp hj; omega)
    rw [hx, hy] at hij
    simp only [Option.getD_some] at hij
    subst hij
    exact pIter_inj inv.core.acyc hx hy
  have hnodup : ((List.range (N + 1)).map (fun i => (pIter p i v).getD 0)).Nodup :=
    (List.nodup_range (N + 1)).map_on hinj
  have hsubset : ((List.range (N + 1)).map (fun i => (pIter p i v).getD 0)).toFinset ⊆
      Finset.range N := by
    intro x hx
    rw [List.mem_toFinset, List.mem_map] at hx
    obtain ⟨i, hi, hix⟩ := hx
    obtain ⟨y, hy, hyN, _⟩ := hsome i (by have := List.mem_range.mp hi; omega)
    rw [hy] at hix
    simp only [Option.getD_some] at hix
    rw [Finset.mem_range, ← hix]
    exact hyN
  have hcard := Finset.card_le_card hsubset
  rw [List.toFinset_card_of_nodup hnodup, List.length_map, List.length_range,
    Finset.card_range] at hcard
  omega

/-! ### Correctness of the reconstruction loop -/

theorem chain_root_eq_start {g : Graph} {s : Nat} {d p : List (Option Nat)}
    (inv : Inv g s d p []) {r dr : Nat} (hd : d[r]? = some (some dr))
    (hp : p.getD r none = none) : r = s := by
  by_contra hrs
  obtain ⟨w, hw⟩ := inv.core.psome r dr hrs hd
  rw [getD_opt.mpr hw] at hp
  cases hp

/-- Complete characterization of the reconstruction loop: starting at a
known vertex whose parent chain terminates within the fuel, it returns
the parent chain appended to the accumulators, with the matching
distance readings. -/
theorem buildPath_spec {g : Graph} {s : Nat} {d p : List (Option Nat)}
    (inv : Inv g s d p []) :
    ∀ (fuel ei de : Nat) (path0 dist0 : List Nat),
      d[ei]? = some (some de) →
      (∃ m, m < fuel ∧ pIter p (m + 1) ei = none) →
      ∃ L, buildPath d p fuel ei path0 dist0 =
          some (path0 ++ L, dist0 ++ (ei :: L).map (fun v => (d.getD v none).getD 0)) ∧
        List.Chain' (fun a b => p.getD a none = some b) (ei :: L) ∧
        (∀ v ∈ ei :: L, ∃ dv, d[v]? = some (some dv)) ∧
        ∃ r, (ei :: L).getLast? = some r ∧ p.getD r none = none := by
  intro fuel
  induction fuel with
  | zero =>
    intro ei de path0 dist0 _ hterm
    obtain ⟨m, hm, _⟩ := hterm
    omega
  | succ fuel ih =>
    intro ei de path0 dist0 hde hterm
    have hei : ei < p.length :=
      inv.core.plen ▸ inv.core.dlen ▸ getElem?_some_lt hde
    obtain ⟨pe, hpe⟩ : ∃ pe, p[ei]? = some pe :=
      ⟨_, List.getElem?_eq_getElem hei⟩
    cases pe with
    | none =>
      refine ⟨[], ?_, ?_, ?_, ei, rfl, ?_⟩
      · simp only [buildPath, hpe, hde]
        rw [List.append_nil]
        have h2 : (d.getD ei none).getD 0 = de := by
          rw [getD_opt.mpr hde]
          rfl
        simp [h2, hde]
      · simp
      · intro v hv
        rw [List.mem_singleton.mp hv]
        exact ⟨de, hde⟩
      · exact getD_opt_none.mpr (Or.inr hpe)
    | some u =>
      obtain ⟨e, he, hnode, du, dei', hdu, hdei', _⟩ :=
        inv.core.pedge ei u hpe
      have hgd : p.getD ei none = some u := getD_opt.mpr hpe
      obtain ⟨m, hmf, hmn⟩ := hterm
      have hm0 : m ≠ 0 := by
        intro h0
        subst h0
        have : pIter p 1 ei = some u := by
          show (match p.getD ei none with
            | none => none
            | some u => pIter p 0 u) = some u
          rw [hgd]
          rfl
        rw [this] at hmn
        cases hmn
      obtain ⟨m', rfl⟩ : ∃ m', m = m' + 1 := ⟨m - 1, by omega⟩
      have hmn' : pIter p (m' + 1) u = none := by
        have : pIter p (m' + 1 + 1) ei = pIter p (m' + 1) u := by
          show (match p.getD ei none with
            | none => none
            | some w => pIter p (m' + 1) w) = _
          rw [hgd]
        rw [← this]
        exact hmn
      obtain ⟨L', heq, hchain, hvals, r, hlast, hroot⟩ :=
        ih u du (path0 ++ [u]) (dist0 ++ [de]) hdu ⟨m', by omega, hmn'⟩
      refine ⟨u :: L', ?_, ?_, ?_, r, ?_, hroot⟩
      · simp only [buildPath, hpe, hde]
        rw [heq]
        have hfei : (d.getD ei none).getD 0 = de := by
          rw [getD_opt.mpr hde]
          rfl
        simp [hfei, hde, List.append_assoc]
      · exact List.chain'_cons.mpr ⟨hgd, hchain⟩
      · intro v hv
        rcases List.mem_cons.mp hv with rfl | hv'
        · exact ⟨de, hde⟩
        · exact hvals v hv'
      · rw [← hlast]
        rfl

/-! ### The behaviour of find_shortest_path -/

theorem find_unfold {g : Graph} {s t : Nat} (hs : s < g.list.length)
    {d p : List (Option Nat)}
    (hloop : dijkstraLoop g
      ((List.replicate g.list.length (none : Option Nat)).set s (some 0))
      (List.replicate g.list.length (none : Option Nat)) [State.mk 0 s] = some (d, p)) :
    find_shortest_path g s t =
      match d[t]? with
      | none => none
      | some none => none
      | some (some cost) =>
        match p[t]? with
        | none => none
        | some none => none
        | some (some e0) =>
          match buildPath d p (p.length + 1) e0 [e0] [cost] with
          | none => none
          | some (path, dist) => some (Path.mk path.reverse dist.reverse cost) := by
  rw [find_shortest_path]
  simp only [hs, if_true, hloop]

/-- For `start = end` the code returns `None`: the source never acquires
a parent, and the reconstruction starts with `parent[end]?`. -/
theorem find_self {g : Graph} {s : Nat} (hg : GraphWF g)
    (hS : totalCost g < 2 ^ 64) (hs : s < g.list.length) :
    find_shortest_path g s s = none := by
  obtain ⟨d, p, hloop, inv⟩ := dijkstra_solved hg hS hs
  rw [find_unfold hs hloop, inv.core.dzero, inv.core.pstart]

theorem find_unreachable {g : Graph} {s t : Nat} (hg : GraphWF g)
    (hS : totalCost g < 2 ^ 64)
    (hs : s < g.list.length) (hun : ∀ c, ¬ IsWalk g s t c) :
    find_shortest_path g s t = none := by
  obtain ⟨d, p, hloop, inv⟩ := dijkstra_solved hg hS hs
  cases hdt : d[t]? with
  | none => rw [find_unfold hs hloop, hdt]
  | some o =>
    cases o with
    | none => rw [find_unfold hs hloop, hdt]
    | some dt =>
      obtain ⟨vs, htr⟩ := inv.core.sound t dt hdt
      exact absurd (trail_isWalk htr) (hun dt)

/-- The master description of every successful solve: existence,
optimality of the cost, endpoint and alignment structure of the
reconstructed sequences, the per-step edge deltas, and monotonicity. -/
theorem zip_map_self (f : α → β) : ∀ l : List α, l.zip (l.map f) = l.map (fun a => (a, f a))
  | [] => rfl
  | a :: l => by
    simp only [List.map_cons, List.zip_cons_cons, zip_map_self f l]

theorem find_some_master {g : Graph} {s t : Nat} (hg : GraphWF g)
    (hS : totalCost g < 2 ^ 64)
    (hs : s < g.list.length) (ht : t < g.list.length) (hts : t ≠ s)
    {c : Nat} (hwalk : IsWalk g s t c) :
    ∃ P, find_shortest_path g s t = some P ∧
      IsWalk g s t P.cost ∧
      (∀ c', IsWalk g s t c' → P.cost ≤ c') ∧
      P.path.head? = some s ∧
      P.distance.length = P.path.length + 1 ∧
      P.distance.head? = some 0 ∧
      P.distance.getLast? = some P.cost ∧
      List.Chain' (fun a b => ∃ e ∈ edgesOf g a.1, e.node = b.1 ∧ b.2 = a.2 + e.cost)
        ((P.path ++ [t]).zip P.distance) ∧
      List.Chain' (· ≤ ·) P.distance ∧
      ((∀ l ∈ g.list, ∀ e ∈ l, 0 < e.cost) → List.Chain' (· < ·) P.distance) := by
  obtain ⟨d, p, hloop, inv⟩ := dijkstra_solved hg hS hs
  obtain ⟨dt, hdt, hdtc⟩ := final_lower_bound inv t c hwalk
  obtain ⟨e0, hpt⟩ := inv.core.psome t dt hts hdt
  obtain ⟨e1, he1, hnode1, de0, dt', hde0, hdt', hdelta1⟩ := final_pedge_exact inv t e0 hpt
  obtain ⟨m, hm, hmn⟩ := chain_terminates inv hde0
  obtain ⟨L, hbp, hchain, hvals, r, hlast, hroot⟩ :=
    buildPath_spec inv (p.length + 1) e0 de0 [e0] [dt] hde0 ⟨m, hm, hmn⟩
  have hrs : r = s := by
    obtain ⟨dr, hdr⟩ := hvals r (List.mem_of_mem_getLast? hlast)
    exact chain_root_eq_start inv hdr hroot
  rw [hrs] at hlast
  have hfind : find_shortest_path g s t =
      some (Path.mk (e0 :: L).reverse
        ((dt :: (e0 :: L).map (fun v => (d.getD v none).getD 0)).reverse) dt) := by
    rw [find_unfold hs hloop]
    simp only [hdt, hpt, hbp, List.singleton_append]
  -- the full vertex sequence, source to target
  have hft : (fun v => (d.getD v none).getD 0) t = dt := by
    show (d.getD t none).getD 0 = dt
    rw [getD_opt.mpr hdt]
    rfl
  have hfs : (fun v => (d.getD v none).getD 0) s = 0 := by
    show (d.getD s none).getD 0 = 0
    rw [getD_opt.mpr inv.core.dzero]
    rfl
  have hfull : (e0 :: L).reverse ++ [t] = (t :: e0 :: L).reverse := by
    simp
  have hdistfull : (dt :: (e0 :: L).map (fun v => (d.getD v none).getD 0)).reverse =
      ((t :: e0 :: L).reverse).map (fun v => (d.getD v none).getD 0) := by
    rw [List.map_reverse]
    show (dt :: _).reverse = ((fun v => (d.getD v none).getD 0) t :: _).reverse
    rw [hft]
  -- the backward parent chain over t :: e0 :: L
  have hchainT : List.Chain' (fun a b => p.getD a none = some b) (t :: e0 :: L) :=
    List.chain'_cons.mpr ⟨getD_opt.mpr hpt, hchain⟩
  -- the forward chain over the full sequence
  have hchainF : List.Chain' (fun x y => p.getD y none = some x) ((t :: e0 :: L).reverse) := by
    rw [List.chain'_reverse]
    exact hchainT
  -- the delta chain over the full sequence
  have hchainD : List.Chain' (fun x y => ∃ e ∈ edgesOf g x, e.node = y ∧
      (fun v => (d.getD v none).getD 0) y = (fun v => (d.getD v none).getD 0) x + e.cost)
      ((t :: e0 :: L).reverse) := by
    refine hchainF.imp ?_
    intro x y hxy
    obtain ⟨e, he, hnode, dx, dy, hdx, hdy, hsum⟩ := final_pedge_exact inv y x (getD_opt.mp hxy)
    refine ⟨e, he, hnode, ?_⟩
    show (d.getD y none).getD 0 = (d.getD x none).getD 0 + e.cost
    rw [getD_opt.mpr hdx, getD_opt.mpr hdy]
    simpa using hsum.symm
  have hhead : ((t :: e0 :: L).reverse).head? = some s := by
    rw [List.head?_reverse, List.getLast?_cons_cons, hlast]
  refine ⟨_, hfind, ?_, ?_, ?_, ?_, ?_, ?_, ?_, ?_, ?_⟩
  · obtain ⟨vs, htr⟩ := inv.core.sound t dt hdt
    exact trail_isWalk htr
  · intro c' hw'
    obtain ⟨dv, hdv, hle⟩ := final_lower_bound inv t c' hw'
    rw [hdt] at hdv
    injection hdv with h1
    injection h1 with h2
    show dt ≤ c'
    omega
  · show (e0 :: L).reverse.head? = some s
    rw [List.head?_reverse]
    exact hlast
  · show (dt :: _).reverse.length = (e0 :: L).reverse.length + 1
    rw [List.length_reverse, List.length_reverse]
    simp
  · show (dt :: _).reverse.head? = some 0
    rw [hdistfull, List.head?_map, hhead]
    simp only [Option.map_some', Option.some.injEq]
    exact hfs
  · show (dt :: _).reverse.getLast? = some dt
    rw [hdistfull, List.getLast?_map, List.getLast?_reverse]
    simp only [List.head?_cons, Option.map_some', Option.some.injEq]
    exact hft
  · show List.Chain' _ (((e0 :: L).reverse ++ [t]).zip ((dt :: _).reverse))
    rw [hfull, hdistfull]
    rw [zip_map_self, List.chain'_map]
    exact hchainD
  · show List.Chain' _ ((dt :: _).reverse)
    rw [hdistfull, List.chain'_map]
    refine hchainD.imp ?_
    intro a b hab
    obtain ⟨e, _, _, hsum⟩ := hab
    simp only [] at hsum ⊢
    omega
  · intro hpos
    show List.Chain' _ ((dt :: _).reverse)
    rw [hdistfull, List.chain'_map]
    refine hchainD.imp ?_
    intro a b hab
    obtain ⟨e, he, _, hsum⟩ := hab
    obtain ⟨l, hl, hel⟩ := edgesOf_mem he
    have := hpos l (List.getElem?_mem hl) e hel
    simp only [] at hsum ⊢
    omega

/-! ### Termination as a statement about the loop's step relation -/

/-- One non-final iteration of the relaxation loop, as a relation on
(distance, parent, heap) states: `DStep g st' st` holds when the loop in
state `st` pops an entry and continues (without panicking) in `st'`. -/
def DStep (g : Graph) (st' st : List (Option Nat) × List (Option Nat) × List State) : Prop :=
  ∃ s rest, popMax st.2.2 = some (s, rest) ∧
    ((∃ dv, st.1[s.position]? = some (some dv) ∧ s.cost > dv ∧
        st' = (st.1, st.2.1, rest)) ∨
      (∃ dcur edges, st.1[s.position]? = some dcur ∧
        (match dcur with | none => false | some x => decide (s.cost > x)) = false ∧
        g.list[s.position]? = some edges ∧
        relaxEdges s.cost s.position edges st.1 st.2.1 rest = some st'))

theorem dstep_decreases {g : Graph} {st' st : List (Option Nat) × List (Option Nat) × List State}
    (h : DStep g st' st) :
    Prod.Lex (· < ·) (Prod.Lex (· < ·) (· < ·))
      (numNone st'.1, sumSome st'.1, st'.2.2.length)
      (numNone st.1, sumSome st.1, st.2.2.length) := by
  obtain ⟨s, rest, hpop, hcase⟩ := h
  rcases hcase with ⟨dv, _, _, rfl⟩ | ⟨dcur, edges, _, _, _, hrel⟩
  · exact Prod.Lex.right _ (Prod.Lex.right _ (popMax_length hpop))
  · obtain ⟨d', p', h'⟩ := st'
    show Prod.Lex _ _ (numNone d', sumSome d', h'.length) _
    rcases relaxEdges_measure hrel with ⟨h1, h2⟩ | hm
    · subst h1
      subst h2
      exact Prod.Lex.right _ (Prod.Lex.right _ (popMax_length hpop))
    · rcases hm with h1 | ⟨h1, h2⟩
      · exact Prod.Lex.left _ _ h1
      · rw [h1]
        exact Prod.Lex.right _ (Prod.Lex.left _ _ h2)

/-- Every state of the relaxation loop is accessible under the step
relation: no infinite run of pops and pushes exists, for any graph. -/
theorem dstep_wf (g : Graph) :
    ∀ st : List (Option Nat) × List (Option Nat) × List State, Acc (DStep g) st := by
  have hwf : WellFounded (DStep g) := by
    have hlex : WellFounded (Prod.Lex (α := Nat) (β := Nat ×ₗ Nat) (· < ·)
        (Prod.Lex (· < ·) (· < ·))) :=
      (Nat.lt_wfRel.wf.prod_lex (Nat.lt_wfRel.wf.prod_lex Nat.lt_wfRel.wf))
    refine Subrelation.wf ?_ (InvImage.wf
      (fun st : List (Option Nat) × List (Option Nat) × List State =>
        ((numNone st.1, (sumSome st.1, st.2.2.length)) : Nat ×ₗ (Nat ×ₗ Nat))) hlex)
    intro st' st h
    exact dstep_decreases h
  exact hwf.apply

/-! ### The graph-store operations preserve the structural invariants -/

theorem listModify_length (f : α → α) : ∀ (n : Nat) (l : List α),
    (listModify f n l).length = l.length
  | n, [] => by cases n <;> rfl
  | 0, a :: l => rfl
  | n + 1, a :: l => by
    simp only [listModify, List.length_cons, listModify_length f n l]

theorem mem_listModify {f : α → α} : ∀ {n : Nat} {l : List α} {x : α},
    x ∈ listModify f n l → x ∈ l ∨ ∃ b ∈ l, x = f b := by
  intro n
  induction n with
  | zero =>
    intro l x hx
    cases l with
    | nil => exact Or.inl hx
    | cons a l =>
      rcases List.mem_cons.mp hx with rfl | hx'
      · exact Or.inr ⟨a, List.mem_cons_self _ _, rfl⟩
      · exact Or.inl (List.mem_cons_of_mem _ hx')
  | succ n ih =>
    intro l x hx
    cases l with
    | nil => exact Or.inl hx
    | cons a l =>
      rcases List.mem_cons.mp hx with rfl | hx'
      · exact Or.inl (List.mem_cons_self _ _)
      · rcases ih hx' with h | ⟨b, hb, hxb⟩
        · exact Or.inl (List.mem_cons_of_mem _ h)
        · exact Or.inr ⟨b, List.mem_cons_of_mem _ hb, hxb⟩

/-- One call of the §4.1 interface: insert-or-lookup by name, or an
undirected edge addition. -/
inductive GraphOp where
  | insert (name : String)
  | addEdge (src dest cost : Nat)

def applyOp (g : Graph) : GraphOp → Graph
  | .insert name => (g.get_or_insert_node name).1
  | .addEdge src dest cost => g.add_bidirectional_edge src dest cost

def applyOps (g : Graph) : List GraphOp → Graph
  | [] => g
  | op :: ops => applyOps (applyOp g op) ops

/-- Every `addEdge` in the sequence has in-range endpoints at the moment
it is applied (the claim's hypothesis; Rust would panic otherwise). -/
def ValidOps (g : Graph) : List GraphOp → Prop
  | [] => True
  | .insert name :: ops => ValidOps (applyOp g (.insert name)) ops
  | .addEdge src dest cost :: ops =>
    src < g.list.length ∧ dest < g.list.length ∧
      ValidOps (g.add_bidirectional_edge src dest cost) ops

instance instDecValidOps : ∀ (g : Graph) (ops : List GraphOp), Decidable (ValidOps g ops)
  | _, [] => isTrue trivial
  | g, .insert name :: ops =>
    match instDecValidOps (applyOp g (.insert name)) ops with
    | isTrue h => isTrue h
    | isFalse h => isFalse h
  | g, .addEdge src dest cost :: ops =>
    have : Decidable (ValidOps (g.add_bidirectional_edge src dest cost) ops) :=
      instDecValidOps _ ops
    inferInstanceAs (Decidable (_ ∧ _ ∧ _))

theorem applyOp_wf {g : Graph} (hg : GraphWF g) :
    ∀ {op : GraphOp},
      (match op with
        | .insert _ => True
        | .addEdge src dest _ => src < g.list.length ∧ dest < g.list.length) →
      GraphWF (applyOp g op) := by
  intro op hv
  cases op with
  | insert name =>
    show GraphWF (g.get_or_insert_node name).1
    unfold Graph.get_or_insert_node
    cases hfind : g.get_node name with
    | some n => exact hg
    | none =>
      obtain ⟨hlen, hedge, hnodup⟩ := hg
      have hnotmem : name ∉ g.nodes := by
        unfold Graph.get_node at hfind
        rw [List.findIdx?_eq_none_iff] at hfind
        intro hm
        have := hfind name hm
        simp at this
      refine ⟨?_, ?_, ?_⟩
      · simp [hlen]
      · intro l hl e he
        simp only [List.length_append, List.length_singleton]
        rcases List.mem_append.mp hl with h | h
        · exact Nat.lt_succ_of_lt (hedge l h e he)
        · rw [List.mem_singleton.mp h] at he
          cases he
      · rw [List.nodup_append]
        exact ⟨hnodup, List.nodup_singleton _,
          List.disjoint_singleton.mpr hnotmem⟩
  | addEdge src dest cost =>
    obtain ⟨hsrc, hdest⟩ := hv
    obtain ⟨hlen, hedge, hnodup⟩ := hg
    refine ⟨?_, ?_, hnodup⟩
    · show g.nodes.length = (listModify _ dest (listModify _ src g.list)).length
      rw [listModify_length, listModify_length]
      exact hlen
    · intro l hl e he
      show e.node < (listModify _ dest (listModify _ src g.list)).length
      rw [listModify_length, listModify_length]
      rcases mem_listModify hl with h1 | ⟨b1, hb1, rfl⟩
      · rcases mem_listModify h1 with h2 | ⟨b2, hb2, rfl⟩
        · exact hedge l h2 e he
        · rcases List.mem_append.mp he with h3 | h3
          · exact hedge b2 hb2 e h3
          · rw [List.mem_singleton.mp h3]
            exact hdest
      · rcases List.mem_append.mp he with h3 | h3
        · rcases mem_listModify hb1 with h2 | ⟨b2, hb2, rfl⟩
          · exact hedge b1 h2 e h3
          · rcases List.mem_append.mp h3 with h4 | h4
            · exact hedge b2 hb2 e h4
            · rw [List.mem_singleton.mp h4]
              exact hdest
        · rw [List.mem_singleton.mp h3]
          exact hsrc

theorem applyOp_nodes_pres (g : Graph) (op : GraphOp) :
    ∀ i, i < g.nodes.length → (applyOp g op).nodes[i]? = g.nodes[i]? := by
  intro i hi
  cases op with
  | insert name =>
    show (g.get_or_insert_node name).1.nodes[i]? = _
    unfold Graph.get_or_insert_node
    cases hfind : g.get_node name with
    | some n => rfl
    | none =>
      show (g.nodes ++ [name])[i]? = g.nodes[i]?
      rw [List.getElem?_append, if_pos hi]
  | addEdge src dest cost => rfl

theorem applyOp_nodes_le (g : Graph) (op : GraphOp) :
    g.nodes.length ≤ (applyOp g op).nodes.length := by
  cases op with
  | insert name =>
    show g.nodes.length ≤ (g.get_or_insert_node name).1.nodes.length
    unfold Graph.get_or_insert_node
    cases hfind : g.get_node name with
    | some n => exact Nat.le_refl _
    | none => simp
  | addEdge src dest cost => exact Nat.le_refl _

theorem applyOps_wf : ∀ (ops : List GraphOp) (g : Graph), GraphWF g → ValidOps g ops →
    GraphWF (applyOps g ops) := by
  intro ops
  induction ops with
  | nil => intro g hg _; exact hg
  | cons op ops ih =>
    intro g hg hv
    cases op with
    | insert name => exact ih _ (applyOp_wf hg trivial) hv
    | addEdge src dest cost =>
      obtain ⟨h1, h2, h3⟩ := hv
      exact ih _ (applyOp_wf hg ⟨h1, h2⟩) h3

theorem applyOps_nodes_pres : ∀ (ops : List GraphOp) (g : Graph) (i : Nat),
    i < g.nodes.length → (applyOps g ops).nodes[i]? = g.nodes[i]? := by
  intro ops
  induction ops with
  | nil => intro g i _; rfl
  | cons op ops ih =>
    intro g i hi
    have h1 := applyOp_nodes_pres g op i hi
    have h2 := ih (applyOp g op) i (Nat.lt_of_lt_of_le hi (applyOp_nodes_le g op))
    exact h2.trans h1

theorem applyOps_append (g : Graph) : ∀ (pre suf : List GraphOp),
    applyOps g (pre ++ suf) = applyOps (applyOps g pre) suf := by
  intro pre
  induction pre generalizing g with
  | nil => intro suf; rfl
  | cons op pre ih => intro suf; exact ih (applyOp g op) suf

theorem applyOps_nodes_le (g : Graph) : ∀ ops : List GraphOp,
    g.nodes.length ≤ (applyOps g ops).nodes.length := by
  intro ops
  induction ops generalizing g with
  | nil => exact Nat.le_refl _
  | cons op ops ih =>
    exact Nat.le_trans (applyOp_nodes_le g op) (ih (applyOp g op))

theorem graph_new_wf : GraphWF Graph.new := by
  refine ⟨rfl, ?_, List.nodup_nil⟩
  intro l hl
  cases hl

/-! ### The heap ordering -/

theorem State_cmp_gt_iff (a b : State) :
    State.cmp a b = Ordering.gt ↔
      a.cost < b.cost ∨ (a.cost = b.cost ∧ b.position < a.position) := by
  unfold State.cmp
  cases hc : compare b.cost a.cost with
  | lt =>
    rw [Nat.compare_eq_lt] at hc
    show Ordering.lt = Ordering.gt ↔ _
    constructor
    · intro h; cases h
    · intro h; rcases h with h | ⟨h1, h2⟩ <;> omega
  | eq =>
    rw [Nat.compare_eq_eq] at hc
    show compare a.position b.position = Ordering.gt ↔ _
    rw [Nat.compare_eq_gt]
    constructor
    · intro h; exact Or.inr ⟨hc.symm, h⟩
    · intro h
      rcases h with h | ⟨h1, h2⟩
      · omega
      · exact h2
  | gt =>
    rw [Nat.compare_eq_gt] at hc
    show Ordering.gt = Ordering.gt ↔ _
    constructor
    · intro _; exact Or.inl hc
    · intro _; rfl

theorem maxState_not_gt : ∀ (l : List State) (s x : State), x ∈ s :: l →
    State.cmp x (maxState s l) ≠ Ordering.gt := by
  intro l
  induction l with
  | nil =>
    intro s x hx
    rw [List.mem_singleton.mp hx]
    show State.cmp s (maxState s []) ≠ Ordering.gt
    simp only [maxState, ne_eq, State_cmp_gt_iff]
    omega
  | cons y l ih =>
    intro s x hx
    show State.cmp x (maxState (if State.cmp y s = Ordering.gt then y else s) l) ≠
      Ordering.gt
    set m := if State.cmp y s = Ordering.gt then y else s with hm
    have hmax_m : State.cmp m (maxState m l) ≠ Ordering.gt :=
      ih m m (List.mem_cons_self _ _)
    rcases List.mem_cons.mp hx with hxs | hx'
    · subst hxs
      by_cases hys : State.cmp y x = Ordering.gt
      · have hmeq : m = y := by rw [hm, if_pos hys]
        rw [State_cmp_gt_iff] at hys
        rw [hmeq] at hmax_m ⊢
        simp only [ne_eq, State_cmp_gt_iff] at hmax_m ⊢
        omega
      · have hmeq : m = x := by rw [hm, if_neg hys]
        rw [hmeq] at hmax_m ⊢
        exact hmax_m
    · rcases List.mem_cons.mp hx' with hxy | hx''
      · subst hxy
        by_cases hys : State.cmp x s = Ordering.gt
        · have hmeq : m = x := by rw [hm, if_pos hys]
          rw [hmeq] at hmax_m ⊢
          exact hmax_m
        · have hmeq : m = s := by rw [hm, if_neg hys]
          simp only [State_cmp_gt_iff] at hys
          rw [hmeq] at hmax_m ⊢
          simp only [ne_eq, State_cmp_gt_iff] at hmax_m ⊢
          omega
      · exact ih m x (List.mem_cons_of_mem _ hx'')

theorem popMax_max {heap : List State} {s : State} {rest : List State}
    (h : popMax heap = some (s, rest)) :
    ∀ x ∈ heap, State.cmp x s ≠ Ordering.gt := by
  cases heap with
  | nil => simp [popMax] at h
  | cons a l =>
    simp only [popMax, Option.some.injEq, Prod.mk.injEq] at h
    intro x hx
    rw [← h.1]
    exact maxState_not_gt l a x hx

/-! ### The parser's acceptance condition -/

/-- A line that `load_graph`'s loop accepts: at least three
space-separated tokens, the third parsing as a `usize`. -/
def lineOk (line : List Char) : Prop :=
  ∃ t1 t2 t3 rest, splitOnChar ' ' line = t1 :: t2 :: t3 :: rest ∧
    (parseUsize t3).isSome

theorem loadLine_isSome_iff (g : Graph) (line : List Char) :
    (loadLine g line).isSome ↔ lineOk line := by
  unfold loadLine lineOk
  cases hsp : splitOnChar ' ' line with
  | nil => simp [hsp]
  | cons t1 r1 =>
    cases r1 with
    | nil => simp [hsp]
    | cons t2 r2 =>
      cases r2 with
      | nil => simp [hsp]
      | cons t3 r3 =>
        cases hp : parseUsize t3 with
        | none =>
          simp only [hsp, hp, Option.isSome_none, Bool.false_eq_true, false_iff]
          rintro ⟨u1, u2, u3, ur, heq, hu⟩
          injection heq with e1 heq
          injection heq with e2 heq
          injection heq with e3 _
          rw [← e3, hp] at hu
          cases hu
        | some cst =>
          simp only [hsp, hp, Option.isSome_some, true_iff]
          exact ⟨t1, t2, t3, r3, rfl, by rw [hp]; rfl⟩

theorem foldlM_loadLine_isSome : ∀ (ls : List (List Char)) (g : Graph),
    (ls.foldlM loadLine g).isSome ↔ ∀ l ∈ ls, lineOk l := by
  intro ls
  induction ls with
  | nil =>
    intro g
    simp [List.foldlM]
  | cons l ls ih =>
    intro g
    rw [List.foldlM_cons]
    cases hl : loadLine g l with
    | none =>
      simp only [Option.bind_eq_bind, Option.none_bind, Option.isSome_none,
        Bool.false_eq_true, false_iff]
      intro hall
      have := (loadLine_isSome_iff g l).mpr (hall l (List.mem_cons_self _ _))
      rw [hl] at this
      cases this
    | some g' =>
      simp only [Option.bind_eq_bind, Option.some_bind]
      rw [ih g']
      constructor
      · intro hall l' hl'
        rcases List.mem_cons.mp hl' with rfl | h
        · have := (loadLine_isSome_iff g l').mp (by rw [hl]; rfl)
          exact this
        · exact hall l' h
      · intro hall l' hl'
        exact hall l' (List.mem_cons_of_mem _ hl')

theorem load_graph_isSome_iff (input : String) :
    (load_graph input).isSome ↔ ∀ line ∈ rustLines (rustTrim input.data), lineOk line :=
  foldlM_loadLine_isSome _ _

/-! ### Concrete example graphs and their evaluations -/

/-- Two vertices `a`, `z` joined by one undirected edge of cost 5. -/
def gEx : Graph := ⟨["a", "z"], [[⟨1, 5⟩], [⟨0, 5⟩]]⟩

/-- A single isolated vertex. -/
def gOne : Graph := ⟨["a"], [[]]⟩

/-- Two isolated vertices (no path between them). -/
def gTwo : Graph := ⟨["a", "z"], [[], []]⟩

theorem gEx_loop : dijkstraLoop gEx
    ((List.replicate gEx.list.length (none : Option Nat)).set 0 (some 0))
    (List.replicate gEx.list.length (none : Option Nat)) [State.mk 0 0] =
    some ([some 0, some 5], [none, some 0]) := by
  show dijkstraLoop gEx [some 0, none] [none, none] [State.mk 0 0] = _
  refine (dijkstraLoop_go (some 0) (by rfl) (by rfl) (by rfl) (by rfl) (by rfl)).trans ?_
  refine (dijkstraLoop_go (some 5) (by rfl) (by rfl) (by rfl) (by rfl) (by rfl)).trans ?_
  exact dijkstraLoop_empty rfl

theorem gEx_eval : find_shortest_path gEx 0 1 = some (Path.mk [0] [0, 5] 5) := by
  rw [find_unfold (by decide) gEx_loop]
  rfl

theorem gOne_loop : dijkstraLoop gOne
    ((List.replicate gOne.list.length (none : Option Nat)).set 0 (some 0))
    (List.replicate gOne.list.length (none : Option Nat)) [State.mk 0 0] =
    some ([some 0], [none]) := by
  show dijkstraLoop gOne [some 0] [none] [State.mk 0 0] = _
  refine (dijkstraLoop_go (some 0) (by rfl) (by rfl) (by rfl) (by rfl) (by rfl)).trans ?_
  exact dijkstraLoop_empty rfl

theorem gOne_eval : find_shortest_path gOne 0 0 = none := by
  rw [find_unfold (by decide) gOne_loop]
  rfl

/-! ### Counterexample graphs with overflowing relaxation sums -/

/-- The graph `load_graph` builds from `a b 9223372036854775809`,
`b z 9223372036854775809`, `a z 5`: both costs `2 ^ 63 + 1` are
parseable `usize` values, and the relaxation sum
`(2 ^ 63 + 1) + (2 ^ 63 + 1)` wraps around `2 ^ 64` to `2`. -/
def gK : Graph :=
  ⟨["a", "b", "z"],
   [[⟨1, 2 ^ 63 + 1⟩, ⟨2, 5⟩],
    [⟨0, 2 ^ 63 + 1⟩, ⟨2, 2 ^ 63 + 1⟩],
    [⟨1, 2 ^ 63 + 1⟩, ⟨0, 5⟩]]⟩

theorem gK_load :
    load_graph "a b 9223372036854775809\nb z 9223372036854775809\na z 5" = some gK := by
  decide

theorem gK_loop : dijkstraLoop gK
    ((List.replicate gK.list.length (none : Option Nat)).set 0 (some 0))
    (List.replicate gK.list.length (none : Option Nat)) [State.mk 0 0] =
    some ([some 0, some (2 ^ 63 + 1), some 2], [none, some 0, some 1]) := by
  show dijkstraLoop gK [some 0, none, none] [none, none, none] [State.mk 0 0] = _
  refine (dijkstraLoop_go (some 0) (by rfl) (by rfl) (by rfl) (by rfl) (by rfl)).trans ?_
  refine (dijkstraLoop_go (some 5) (by rfl) (by rfl) (by rfl) (by rfl) (by rfl)).trans ?_
  refine (dijkstraLoop_go (some (2 ^ 63 + 1)) (by rfl) (by rfl) (by rfl) (by rfl)
    (by rfl)).trans ?_
  refine (dijkstraLoop_go (some 2) (by rfl) (by rfl) (by rfl) (by rfl) (by rfl)).trans ?_
  exact dijkstraLoop_empty rfl

theorem gK_eval :
    find_shortest_path gK 0 2 = some (Path.mk [0, 1] [0, 2 ^ 63 + 1, 2] 2) := by
  rw [find_unfold (by decide) gK_loop]
  rfl

/-- Inversion for walks, phrased over variable endpoints so that it can
be applied to concrete graphs. -/
theorem isWalk_inv {g : Graph} {s v c : Nat} (h : IsWalk g s v c) :
    (v = s ∧ c = 0) ∨
    ∃ u c' e, e ∈ edgesOf g u ∧ Edge.node e = v ∧ c = c' + Edge.cost e ∧
      IsWalk g s u c' := by
  cases h with
  | nil => exact Or.inl ⟨rfl, rfl⟩
  | snoc e he hw => exact Or.inr ⟨_, _, e, he, rfl, rfl, hw⟩

/-- Every walk from `a` to `z` in `gK` costs at least 5: the last edge
into `z` costs either 5 or `2 ^ 63 + 1`. -/
theorem gK_walk_min : ∀ c, IsWalk gK 0 2 c → 5 ≤ c := by
  intro c h
  rcases isWalk_inv h with ⟨h20, _⟩ | ⟨u, c', e, he, hnode, hc, hw⟩
  · exact absurd h20 (by decide)
  · have hu : u < 3 := by
      by_contra hge
      have hemp : edgesOf gK u = [] := by
        unfold edgesOf
        refine List.getD_eq_default _ _ ?_
        show (3 : Nat) ≤ u
        omega
      rw [hemp] at he
      exact absurd he (List.not_mem_nil e)
    interval_cases u
    · have he' : e ∈ [Edge.mk 1 (2 ^ 63 + 1), Edge.mk 2 5] := he
      rcases List.mem_cons.mp he' with rfl | he''
      · exact absurd hnode (by decide)
      rcases List.mem_cons.mp he'' with rfl | h3
      · subst hc
        show 5 ≤ c' + 5
        omega
      · exact absurd h3 (List.not_mem_nil e)
    · have he' : e ∈ [Edge.mk 0 (2 ^ 63 + 1), Edge.mk 2 (2 ^ 63 + 1)] := he
      rcases List.mem_cons.mp he' with rfl | he''
      · exact absurd hnode (by decide)
      rcases List.mem_cons.mp he'' with rfl | h3
      · subst hc
        show 5 ≤ c' + (2 ^ 63 + 1)
        exact Nat.le_trans (by norm_num) (Nat.le_add_left _ _)
      · exact absurd h3 (List.not_mem_nil e)
    · have he' : e ∈ [Edge.mk 1 (2 ^ 63 + 1), Edge.mk 0 5] := he
      rcases List.mem_cons.mp he' with rfl | he''
      · exact absurd hnode (by decide)
      rcases List.mem_cons.mp he'' with rfl | h3
      · exact absurd hnode (by decide)
      · exact absurd h3 (List.not_mem_nil e)

/-- The graph `load_graph` builds from `a b 18446744073709551615`,
`b z 2`: the wrapped relaxation sums produce a parent cycle between `b`
and `z`, on which the reconstruction loop never terminates. -/
def gM : Graph :=
  ⟨["a", "b", "z"],
   [[⟨1, 2 ^ 64 - 1⟩],
    [⟨0, 2 ^ 64 - 1⟩, ⟨2, 2⟩],
    [⟨1, 2⟩]]⟩

theorem gM_load :
    load_graph "a b 18446744073709551615\nb z 2" = some gM := by
  decide

theorem gM_loop : dijkstraLoop gM
    ((List.replicate gM.list.length (none : Option Nat)).set 0 (some 0))
    (List.replicate gM.list.length (none : Option Nat)) [State.mk 0 0] =
    some ([some 0, some 3, some 1], [none, some 2, some 1]) := by
  show dijkstraLoop gM [some 0, none, none] [none, none, none] [State.mk 0 0] = _
  refine (dijkstraLoop_go (some 0) (by rfl) (by rfl) (by rfl) (by rfl) (by rfl)).trans ?_
  refine (dijkstraLoop_go (some (2 ^ 64 - 1)) (by rfl) (by rfl) (by rfl) (by rfl)
    (by rfl)).trans ?_
  refine (dijkstraLoop_go (some 1) (by rfl) (by rfl) (by rfl) (by rfl) (by rfl)).trans ?_
  refine (dijkstraLoop_go (some 3) (by rfl) (by rfl) (by rfl) (by rfl) (by rfl)).trans ?_
  exact dijkstraLoop_empty rfl

theorem gM_eval : find_shortest_path gM 0 2 = none := by
  rw [find_unfold (by decide) gM_loop]
  rfl

/-- `z` is reachable from `a` in `gM`, by the walk `a → b → z`. -/
theorem gM_reach : IsWalk gM 0 2 (2 ^ 64 + 1) := by
  have hm1 : Edge.mk 1 (2 ^ 64 - 1) ∈ edgesOf gM 0 := by decide
  have h1 : IsWalk gM 0 1 (0 + (2 ^ 64 - 1)) := IsWalk.snoc _ hm1 IsWalk.nil
  have hm2 : Edge.mk 2 2 ∈ edgesOf gM 1 := by decide
  have h2 := IsWalk.snoc _ hm2 h1
  have he : (0 + (2 ^ 64 - 1)) + 2 = 2 ^ 64 + 1 := by norm_num
  rw [← he]
  exact h2

/-! ### The claims -/

/-- C1 counterexample: with the parseable `usize` costs `2 ^ 63 + 1` the
relaxation sum wraps around `2 ^ 64`, and on the well-formed loaded graph
the program returns a path result of cost 2 although every walk from `a`
to `z` costs at least 5 — the returned cost is not the minimum walk cost
(indeed it is no walk's cost at all). -/
theorem claim_C1_cex :
    load_graph "a b 9223372036854775809\nb z 9223372036854775809\na z 5" = some gK ∧
    GraphWF gK ∧ 0 < gK.list.length ∧ 2 < gK.list.length ∧
    find_shortest_path gK 0 2 = some (Path.mk [0, 1] [0, 2 ^ 63 + 1, 2] 2) ∧
    IsWalk gK 0 2 5 ∧
    (∀ c, IsWalk gK 0 2 c → 5 ≤ c) ∧
    ¬ IsWalk gK 0 2 (Path.mk [0, 1] [0, 2 ^ 63 + 1, 2] 2).cost := by
  refine ⟨gK_load, by decide, by decide, by decide, gK_eval, ?_, gK_walk_min, ?_⟩
  · have hm : Edge.mk 2 5 ∈ edgesOf gK 0 := by decide
    exact IsWalk.snoc _ hm IsWalk.nil
  · intro hw
    exact absurd (gK_walk_min _ hw) (by decide)

/-- C1 (amended): when the total of all adjacency entry costs fits in the
64-bit word — so no relaxation sum can overflow — a returned path
result's `cost` field is the minimum total cost over all walks from `s`
to `t`: it is the cost of some walk, and no walk costs less. -/
theorem claim_C1 (g : Graph) (s t : Nat) (hg : GraphWF g)
    (hS : totalCost g < 2 ^ 64)
    (hs : s < g.list.length) (ht : t < g.list.length) (P : Path)
    (hfind : find_shortest_path g s t = some P) :
    IsWalk g s t P.cost ∧ ∀ c, IsWalk g s t c → P.cost ≤ c := by
  have hts : t ≠ s := by
    intro h
    subst h
    rw [find_self hg hS hs] at hfind
    cases hfind
  by_cases hreach : ∃ c, IsWalk g s t c
  · obtain ⟨c, hw⟩ := hreach
    obtain ⟨P', hfind', hwalk', hmin', _⟩ := find_some_master hg hS hs ht hts hw
    rw [hfind'] at hfind
    injection hfind with h1
    subst h1
    exact ⟨hwalk', hmin'⟩
  · rw [find_unreachable hg hS hs (fun c hc => hreach ⟨c, hc⟩)] at hfind
    cases hfind

theorem claim_C1_witness :
    GraphWF gEx ∧ totalCost gEx < 2 ^ 64 ∧ 0 < gEx.list.length ∧ 1 < gEx.list.length ∧
    find_shortest_path gEx 0 1 = some (Path.mk [0] [0, 5] 5) ∧
    (IsWalk gEx 0 1 (Path.mk [0] [0, 5] 5).cost ∧
      ∀ c, IsWalk gEx 0 1 c → (Path.mk [0] [0, 5] 5).cost ≤ c) :=
  ⟨by decide, by decide, by decide, by decide, gEx_eval,
    claim_C1 gEx 0 1 (by decide) (by decide) (by decide) (by decide) _ gEx_eval⟩

/-- C2 counterexample: on the one-edge graph the returned index sequence
is `[0]` — it ends with the source's neighborless predecessor of the
target, not with the target `1` — and the distance sequence `[0, 5]` has
one more entry than the index sequence, not the same length. -/
theorem claim_C2_cex :
    find_shortest_path gEx 0 1 = some (Path.mk [0] [0, 5] 5) ∧
    (Path.mk [0] [0, 5] 5).path.getLast? = some 0 ∧
    (0 : Nat) ≠ 1 ∧
    (Path.mk [0] [0, 5] 5).distance.length = 2 ∧
    (Path.mk [0] [0, 5] 5).path.length = 1 :=
  ⟨gEx_eval, by decide, by decide, by decide, by decide⟩

/-- C2 (amended): under the 64-bit bound on the total adjacency cost,
the index sequence starts with `s` but omits `t`; with `t` appended it
aligns position-for-position with the distance sequence (so the distance
sequence has exactly one more entry than the index sequence); the first
distance is 0, the last equals `cost`, and every adjacent pair of the
`t`-completed index sequence is joined by an edge whose cost is the
corresponding distance delta. -/
theorem claim_C2 (g : Graph) (s t : Nat) (hg : GraphWF g)
    (hS : totalCost g < 2 ^ 64)
    (hs : s < g.list.length) (ht : t < g.list.length) (P : Path)
    (hfind : find_shortest_path g s t = some P) :
    P.path.head? = some s ∧
    P.distance.length = P.path.length + 1 ∧
    P.distance.head? = some 0 ∧
    P.distance.getLast? = some P.cost ∧
    List.Chain' (fun a b => ∃ e ∈ edgesOf g a.1, e.node = b.1 ∧ b.2 = a.2 + e.cost)
      ((P.path ++ [t]).zip P.distance) := by
  have hts : t ≠ s := by
    intro h
    subst h
    rw [find_self hg hS hs] at hfind
    cases hfind
  by_cases hreach : ∃ c, IsWalk g s t c
  · obtain ⟨c, hw⟩ := hreach
    obtain ⟨P', hfind', _, _, hhd, hlen, hd0, hdl, hzip, _, _⟩ :=
      find_some_master hg hS hs ht hts hw
    rw [hfind'] at hfind
    injection hfind with h1
    subst h1
    exact ⟨hhd, hlen, hd0, hdl, hzip⟩
  · rw [find_unreachable hg hS hs (fun c hc => hreach ⟨c, hc⟩)] at hfind
    cases hfind

theorem claim_C2_witness :
    GraphWF gEx ∧ totalCost gEx < 2 ^ 64 ∧ 0 < gEx.list.length ∧ 1 < gEx.list.length ∧
    find_shortest_path gEx 0 1 = some (Path.mk [0] [0, 5] 5) ∧
    ((Path.mk [0] [0, 5] 5).path.head? = some 0 ∧
      (Path.mk [0] [0, 5] 5).distance.length = (Path.mk [0] [0, 5] 5).path.length + 1 ∧
      (Path.mk [0] [0, 5] 5).distance.head? = some 0 ∧
      (Path.mk [0] [0, 5] 5).distance.getLast? = some (Path.mk [0] [0, 5] 5).cost ∧
      List.Chain' (fun a b => ∃ e ∈ edgesOf gEx a.1, e.node = b.1 ∧ b.2 = a.2 + e.cost)
        (((Path.mk [0] [0, 5] 5).path ++ [1]).zip (Path.mk [0] [0, 5] 5).distance)) :=
  ⟨by decide, by decide, by decide, by decide, gEx_eval,
    claim_C2 gEx 0 1 (by decide) (by decide) (by decide) (by decide) _ gEx_eval⟩

/-- C3 counterexample: on the one-vertex graph, `find_shortest_path g 0 0`
returns `none`, not the claimed single-vertex path of cost 0 — the source
never acquires a parent and the reconstruction's `parent[end]?` bails out. -/
theorem claim_C3_cex :
    find_shortest_path gOne 0 0 = none ∧
    (none : Option Path) ≠ some (Path.mk [0] [0] 0) :=
  ⟨gOne_eval, by decide⟩

/-- C3 (amended): for every graph satisfying the §3 invariants whose
total adjacency cost fits in the 64-bit word (so neither an overflow
panic of a checked build nor a wrapped sum can occur) and in-range `s`,
`find_shortest_path g s s` returns `none` (the "no path" signal), never
a single-vertex path. -/
theorem claim_C3 (g : Graph) (s : Nat) (hg : GraphWF g)
    (hS : totalCost g < 2 ^ 64) (hs : s < g.list.length) :
    find_shortest_path g s s = none :=
  find_self hg hS hs

theorem claim_C3_witness :
    GraphWF gOne ∧ totalCost gOne < 2 ^ 64 ∧ 0 < gOne.list.length ∧
    find_shortest_path gOne 0 0 = none :=
  ⟨by decide, by decide, by decide, claim_C3 gOne 0 (by decide) (by decide) (by decide)⟩

/-- C4 counterexample: on the parseable input `a b 18446744073709551615`,
`b z 2`, vertex `z` is reachable from `a`, yet the program does not
return a path result: the wrapped relaxation sums produce a parent cycle
between `b` and `z`, the reconstruction loop never terminates (fuel
exhaustion in the model, an infinite loop in a release build, an
overflow panic in a checked build), and `find_shortest_path` yields the
no-path answer. -/
theorem claim_C4_cex :
    load_graph "a b 18446744073709551615\nb z 2" = some gM ∧
    GraphWF gM ∧ (2 : Nat) ≠ 0 ∧ 0 < gM.list.length ∧ 2 < gM.list.length ∧
    IsWalk gM 0 2 (2 ^ 64 + 1) ∧
    find_shortest_path gM 0 2 = none :=
  ⟨gM_load, by decide, by decide, by decide, by decide, gM_reach, gM_eval⟩

/-- C4 (amended): under the 64-bit bound on the total adjacency cost,
for in-range `s ≠ t` on a graph satisfying the §3 invariants, the solver
returns the "no path" signal exactly when `t` is unreachable from `s`;
in every other case it returns a path result. -/
theorem claim_C4 (g : Graph) (s t : Nat) (hg : GraphWF g)
    (hS : totalCost g < 2 ^ 64)
    (hs : s < g.list.length) (ht : t < g.list.length) (hts : t ≠ s) :
    find_shortest_path g s t = none ↔ ¬ ∃ c, IsWalk g s t c := by
  constructor
  · intro hnone hreach
    obtain ⟨c, hw⟩ := hreach
    obtain ⟨P', hfind', _⟩ := find_some_master hg hS hs ht hts hw
    rw [hfind'] at hnone
    cases hnone
  · intro hun
    exact find_unreachable hg hS hs (fun c hc => hun ⟨c, hc⟩)

theorem claim_C4_witness :
    GraphWF gTwo ∧ totalCost gTwo < 2 ^ 64 ∧
    0 < gTwo.list.length ∧ 1 < gTwo.list.length ∧ (1 : Nat) ≠ 0 ∧
    (find_shortest_path gTwo 0 1 = none ↔ ¬ ∃ c, IsWalk gTwo 0 1 c) :=
  ⟨by decide, by decide, by decide, by decide, by decide,
    claim_C4 gTwo 0 1 (by decide) (by decide) (by decide) (by decide) (by decide)⟩

/-- C5 counterexample: two states of equal cost 1; the one with the
smaller position compares `lt`, not `gt`, under `State.cmp` — the larger
position is the greater element. -/
theorem claim_C5_cex :
    State.cmp (State.mk 1 0) (State.mk 1 1) = Ordering.lt ∧
    State.cmp (State.mk 1 1) (State.mk 1 0) = Ordering.gt :=
  ⟨by decide, by decide⟩

/-- C5 (amended): the heap pops the state with the smallest cost first,
but among states of equal cost the state with the LARGER position
compares as the greater element under the `Ord` instance used by the
max-heap, so it is popped earlier; and `popMax` indeed returns an
element no other heap entry exceeds. -/
theorem claim_C5 :
    (∀ a b : State, State.cmp a b = Ordering.gt ↔
      (a.cost < b.cost ∨ (a.cost = b.cost ∧ b.position < a.position))) ∧
    (∀ (heap : List State) (s : State) (rest : List State),
      popMax heap = some (s, rest) → ∀ x ∈ heap, State.cmp x s ≠ Ordering.gt) :=
  ⟨State_cmp_gt_iff, fun _ _ _ h => popMax_max h⟩

/-- C6 counterexample: a line with four tokens — `"a b 1 x"` — is accepted
by `load_graph` (the trailing token is ignored), where the claim demands
rejection of lines with more than three tokens. -/
theorem claim_C6_cex :
    load_graph "a b 1 x" = some (Graph.mk ["a", "b"] [[⟨1, 1⟩], [⟨0, 1⟩]]) ∧
    (splitOnChar ' ' "a b 1 x".data).length = 4 :=
  ⟨by decide, by decide⟩

/-- C6 (amended): `load_graph` returns `Some` exactly when every line of
the trimmed input has AT LEAST three space-separated tokens with the
third parsing as an unsigned integer; fewer than three tokens, an
unparsable cost, or a blank interior line yield `None`, but tokens after
the third are ignored. -/
theorem claim_C6 (input : String) :
    (load_graph input).isSome ↔ ∀ line ∈ rustLines (rustTrim input.data), lineOk line :=
  load_graph_isSome_iff input

/-- C7: the relaxation loop terminates: every (distance, parent, heap)
state is accessible under the loop's step relation, for every graph, so
no infinite sequence of pops and pushes exists and the heap drains after
finitely many iterations. -/
theorem claim_C7 :
    ∀ (g : Graph) (st : List (Option Nat) × List (Option Nat) × List State),
      Acc (DStep g) st :=
  dstep_wf

/-- C8: starting from `Graph::new`, any sequence of `get_or_insert_node`
and (in-range) `add_bidirectional_edge` calls preserves the structural
invariants — equal sequence lengths, in-range neighbor indices, no
duplicate names — and never removes or renumbers an existing vertex:
after any prefix of the operations, every already-assigned index still
holds the same name at the end. -/
theorem claim_C8 (ops : List GraphOp) (hv : ValidOps Graph.new ops) :
    GraphWF (applyOps Graph.new ops) ∧
    ∀ pre suf, ops = pre ++ suf →
      ∀ i, i < (applyOps Graph.new pre).nodes.length →
        (applyOps Graph.new ops).nodes[i]? = (applyOps Graph.new pre).nodes[i]? := by
  constructor
  · exact applyOps_wf ops Graph.new graph_new_wf hv
  · intro pre suf hps i hi
    rw [hps, applyOps_append]
    exact applyOps_nodes_pres suf _ i hi

theorem claim_C8_witness :
    ValidOps Graph.new
      [GraphOp.insert "a", GraphOp.insert "z", GraphOp.addEdge 0 1 5] ∧
    (GraphWF (applyOps Graph.new
        [GraphOp.insert "a", GraphOp.insert "z", GraphOp.addEdge 0 1 5]) ∧
      ∀ pre suf,
        [GraphOp.insert "a", GraphOp.insert "z", GraphOp.addEdge 0 1 5] = pre ++ suf →
        ∀ i, i < (applyOps Graph.new pre).nodes.length →
          (applyOps Graph.new
            [GraphOp.insert "a", GraphOp.insert "z", GraphOp.addEdge 0 1 5]).nodes[i]? =
          (applyOps Graph.new pre).nodes[i]?) :=
  ⟨by decide, claim_C8 _ (by decide)⟩

theorem gK_dist_not_mono :
    ¬ List.Chain' (· ≤ ·) (Path.mk [0, 1] [0, 2 ^ 63 + 1, 2] 2).distance := by
  intro h
  rw [show (Path.mk [0, 1] [0, 2 ^ 63 + 1, 2] 2).distance = [0, 2 ^ 63 + 1, 2] from rfl,
    List.chain'_cons, List.chain'_cons] at h
  exact absurd h.2.1 (by norm_num)

theorem gK_dist_not_strict :
    ¬ List.Chain' (· < ·) (Path.mk [0, 1] [0, 2 ^ 63 + 1, 2] 2).distance := by
  intro h
  rw [show (Path.mk [0, 1] [0, 2 ^ 63 + 1, 2] 2).distance = [0, 2 ^ 63 + 1, 2] from rfl,
    List.chain'_cons, List.chain'_cons] at h
  exact absurd h.2.1 (by norm_num)

/-- C9 counterexample: on the loaded wrap graph every edge cost is
positive, yet the returned distance sequence `[0, 2 ^ 63 + 1, 2]` is not
even non-decreasing — the wrapped relaxation sum `2` undercuts its
predecessor. -/
theorem claim_C9_cex :
    load_graph "a b 9223372036854775809\nb z 9223372036854775809\na z 5" = some gK ∧
    GraphWF gK ∧ 0 < gK.list.length ∧ 2 < gK.list.length ∧
    (∀ l ∈ gK.list, ∀ e ∈ l, 0 < e.cost) ∧
    find_shortest_path gK 0 2 = some (Path.mk [0, 1] [0, 2 ^ 63 + 1, 2] 2) ∧
    ¬ List.Chain' (· ≤ ·) (Path.mk [0, 1] [0, 2 ^ 63 + 1, 2] 2).distance ∧
    ¬ List.Chain' (· < ·) (Path.mk [0, 1] [0, 2 ^ 63 + 1, 2] 2).distance :=
  ⟨gK_load, by decide, by decide, by decide, by decide, gK_eval,
    gK_dist_not_mono, gK_dist_not_strict⟩

/-- C9 (amended): under the 64-bit bound on the total adjacency cost,
every returned distance sequence is non-decreasing, and strictly
increasing when every edge cost in the graph is positive. -/
theorem claim_C9 (g : Graph) (s t : Nat) (hg : GraphWF g)
    (hS : totalCost g < 2 ^ 64)
    (hs : s < g.list.length) (ht : t < g.list.length) (P : Path)
    (hfind : find_shortest_path g s t = some P) :
    List.Chain' (· ≤ ·) P.distance ∧
    ((∀ l ∈ g.list, ∀ e ∈ l, 0 < e.cost) → List.Chain' (· < ·) P.distance) := by
  have hts : t ≠ s := by
    intro h
    subst h
    rw [find_self hg hS hs] at hfind
    cases hfind
  by_cases hreach : ∃ c, IsWalk g s t c
  · obtain ⟨c, hw⟩ := hreach
    obtain ⟨P', hfind', _, _, _, _, _, _, _, hmono, hstrict⟩ :=
      find_some_master hg hS hs ht hts hw
    rw [hfind'] at hfind
    injection hfind with h1
    subst h1
    exact ⟨hmono, hstrict⟩
  · rw [find_unreachable hg hS hs (fun c hc => hreach ⟨c, hc⟩)] at hfind
    cases hfind

theorem claim_C9_witness :
    GraphWF gEx ∧ totalCost gEx < 2 ^ 64 ∧ 0 < gEx.list.length ∧ 1 < gEx.list.length ∧
    find_shortest_path gEx 0 1 = some (Path.mk [0] [0, 5] 5) ∧
    (List.Chain' (· ≤ ·) (Path.mk [0] [0, 5] 5).distance ∧
      ((∀ l ∈ gEx.list, ∀ e ∈ l, 0 < e.cost) →
        List.Chain' (· < ·) (Path.mk [0] [0, 5] 5).distance)) :=
  ⟨by decide, by decide, by decide, by decide, gEx_eval,
    claim_C9 gEx 0 1 (by decide) (by decide) (by decide) (by decide) _ gEx_eval⟩

/-- C10 counterexample: on the parseable input `a b 18446744073709551615`,
`b z 2`, the relaxation loop completes, but the wrapped sums leave the
parent cycle `b ↔ z`; the reconstruction loop then revisits it forever —
in the model its fuel `parent.length + 1` is exhausted and it returns
`none` — so `find_shortest_path` is not panic- and divergence-free on
well-formed inputs (a checked build panics at the overflowing addition
instead). -/
theorem claim_C10_cex :
    load_graph "a b 18446744073709551615\nb z 2" = some gM ∧
    GraphWF gM ∧ 0 < gM.list.length ∧ 2 < gM.list.length ∧
    dijkstraLoop gM
      ((List.replicate gM.list.length (none : Option Nat)).set 0 (some 0))
      (List.replicate gM.list.length (none : Option Nat)) [State.mk 0 0] =
      some ([some 0, some 3, some 1], [none, some 2, some 1]) ∧
    ([some 0, some 3, some 1] : List (Option Nat))[2]? = some (some 1) ∧
    ([none, some 2, some 1] : List (Option Nat))[2]? = some (some 1) ∧
    buildPath [some 0, some 3, some 1] [none, some 2, some 1]
      (([none, some 2, some 1] : List (Option Nat)).length + 1) 1 [1] [1] = none ∧
    find_shortest_path gM 0 2 = none :=
  ⟨gM_load, by decide, by decide, by decide, gM_loop, rfl, rfl, rfl, gM_eval⟩

/-- C10 (amended): under the §3 invariants, the 64-bit bound on the
total adjacency cost, and in-range `start` and `end`, every vector
access of `find_shortest_path` is in bounds: the relaxation loop never
reaches a panic branch (it returns `some`), the scratch arrays keep
length N, and whenever the reconstruction runs, it completes within its
fuel with every `distance`/`parent` access in range. -/
theorem claim_C10 (g : Graph) (s t : Nat) (hg : GraphWF g)
    (hS : totalCost g < 2 ^ 64)
    (hs : s < g.list.length) (ht : t < g.list.length) :
    ∃ d p, dijkstraLoop g
        ((List.replicate g.list.length (none : Option Nat)).set s (some 0))
        (List.replicate g.list.length (none : Option Nat)) [State.mk 0 s] = some (d, p) ∧
      d.length = g.list.length ∧ p.length = g.list.length ∧
      ∀ cost e0, d[t]? = some (some cost) → p[t]? = some (some e0) →
        (buildPath d p (p.length + 1) e0 [e0] [cost]).isSome := by
  obtain ⟨d, p, hloop, inv⟩ := dijkstra_solved hg hS hs
  refine ⟨d, p, hloop, inv.core.dlen, inv.core.plen, ?_⟩
  intro cost e0 hdt hpt
  obtain ⟨e, he, hnode, de0, dt', hde0, hdt', _⟩ := final_pedge_exact inv t e0 hpt
  obtain ⟨m, hm, hmn⟩ := chain_terminates inv hde0
  obtain ⟨L, hbp, _⟩ :=
    buildPath_spec inv (p.length + 1) e0 de0 [e0] [cost] hde0 ⟨m, hm, hmn⟩
  rw [hbp]
  rfl

theorem claim_C10_witness :
    GraphWF gEx ∧ totalCost gEx < 2 ^ 64 ∧ 0 < gEx.list.length ∧ 1 < gEx.list.length ∧
    (∃ d p, dijkstraLoop gEx
        ((List.replicate gEx.list.length (none : Option Nat)).set 0 (some 0))
        (List.replicate gEx.list.length (none : Option Nat)) [State.mk 0 0] = some (d, p) ∧
      d.length = gEx.list.length ∧ p.length = gEx.list.length ∧
      ∀ cost e0, d[1]? = some (some cost) → p[1]? = some (some e0) →
        (buildPath d p (p.length + 1) e0 [e0] [cost]).isSome) :=
  ⟨by decide, by decide, by decide, by decide,
    claim_C10 gEx 0 1 (by decide) (by decide) (by decide) (by decide)⟩

end CS365
